import Mathlib

/-!
Verification of the `knuth-morris-pratt` crate (`src/lib.rs`).

The Rust source is shallowly embedded as fueled, bounds-checked Lean
functions over `List α`.  `usize` values are represented as `Nat`; the
only operations written with wrapping semantics in the source
(`j.wrapping_add(1)`, `i.wrapping_add(1)`) are modelled with an explicit
`% USIZE`, and the all-bits-set sentinel `!0` is `usizeMax = 2^64 - 1`.
Every slice indexing operation of the source is modelled with a checked
lookup (`l[i]?`); an out-of-bounds index or an underflowing `j - i`
yields `Res.panicked`, and loop iterations are metered by a fuel
parameter whose exhaustion yields `Res.fuelOut` (the source loops have
no syntactic bound, so divergence of the source corresponds to
`Res.fuelOut` at every fuel).
-/

set_option maxHeartbeats 1000000

/-- The modulus of 64-bit `usize` arithmetic. -/
def USIZE : Nat := 2 ^ 64

/-- The sentinel `!0` (all bits set) of the source, as a natural number. -/
def usizeMax : Nat := USIZE - 1

/-- Outcome of running the embedded code: a normal result, a panic
(out-of-bounds index or arithmetic underflow), or fuel exhaustion. -/
inductive Res (β : Type) where
  | ok : β → Res β
  | panicked : Res β
  | fuelOut : Res β
deriving DecidableEq, Repr

/-- Inner fallback loop of `prepare_kmp`:
`while let Some(&next_j) = next.get(j) { if equal(&x[i], &x[j]) { break; } j = next_j; }`.
Returns the final value of `j`. -/
def prepareInner {α : Type} (equal : α → α → Bool) (x : List α) (next : List Nat)
    (i : Nat) : Nat → Nat → Res Nat
  | 0, _ => Res.fuelOut
  | fuel + 1, j =>
    match next[j]? with
    | none => Res.ok j
    | some nextj =>
      match x[i]?, x[j]? with
      | some xi, some xj =>
        if equal xi xj then Res.ok j
        else prepareInner equal x next i fuel nextj
      | _, _ => Res.panicked

/-- Outer loop of `prepare_kmp` (`while i < x.len() { ... }`), carrying the
state `(i, j, next)`.  After the inner loop the source does `i += 1;`,
`j = j.wrapping_add(1);` and then
`if i != x.len() && equal(&x[i], &x[j]) { next[i] = next[j]; } else { next[i] = j; }`. -/
def prepareOuter {α : Type} (equal : α → α → Bool) (x : List α) :
    Nat → Nat → Nat → List Nat → Res (List Nat)
  | 0, _, _, _ => Res.fuelOut
  | fuel + 1, i, j, next =>
    if i < x.length then
      match prepareInner equal x next i (fuel + 1) j with
      | Res.ok j0 =>
        if i + 1 ≠ x.length then
          match x[i + 1]?, x[(j0 + 1) % USIZE]? with
          | some xi, some xj =>
            if equal xi xj then
              match next[(j0 + 1) % USIZE]? with
              | some w =>
                if i + 1 < next.length then
                  prepareOuter equal x fuel (i + 1) ((j0 + 1) % USIZE)
                    (next.set (i + 1) w)
                else Res.panicked
              | none => Res.panicked
            else
              if i + 1 < next.length then
                prepareOuter equal x fuel (i + 1) ((j0 + 1) % USIZE)
                  (next.set (i + 1) ((j0 + 1) % USIZE))
              else Res.panicked
          | _, _ => Res.panicked
        else
          if i + 1 < next.length then
            prepareOuter equal x fuel (i + 1) ((j0 + 1) % USIZE)
              (next.set (i + 1) ((j0 + 1) % USIZE))
          else Res.panicked
      | Res.panicked => Res.panicked
      | Res.fuelOut => Res.fuelOut
    else Res.ok next

/-- Embeds `prepare_kmp(x, next, equal)`: it sets `i = 0`, `j = !0`,
`next[0] = !0` and runs the outer loop, returning the filled table. -/
def prepare_kmp {α : Type} (fuel : Nat) (x : List α) (next : List Nat)
    (equal : α → α → Bool) : Res (List Nat) :=
  if 0 < next.length then
    prepareOuter equal x fuel 0 usizeMax (next.set 0 usizeMax)
  else Res.panicked

/-- Inner fallback loop of the matcher in `knuth_morris_pratt_by`:
`while let Some(&next_i) = next.get(i) { if equal(&pattern[i], &text[j]) { break; } i = next_i; }`.
Returns the final value of `i`. -/
def kmpInner {α : Type} (equal : α → α → Bool) (pattern text : List α)
    (next : List Nat) (j : Nat) : Nat → Nat → Res Nat
  | 0, _ => Res.fuelOut
  | fuel + 1, i =>
    match next[i]? with
    | none => Res.ok i
    | some nexti =>
      match pattern[i]?, text[j]? with
      | some pi, some tj =>
        if equal pi tj then Res.ok i
        else kmpInner equal pattern text next j fuel nexti
      | _, _ => Res.panicked

/-- Outer matcher loop of `knuth_morris_pratt_by`
(`while j < text.len() { ... }`): after the inner loop the source does
`i = i.wrapping_add(1); j += 1;` and returns `Some(j - i)` once
`i >= pattern.len()`. -/
def kmpOuter {α : Type} (equal : α → α → Bool) (pattern text : List α)
    (next : List Nat) : Nat → Nat → Nat → Res (Option Nat)
  | 0, _, _ => Res.fuelOut
  | fuel + 1, i, j =>
    if j < text.length then
      match kmpInner equal pattern text next j (fuel + 1) i with
      | Res.ok i0 =>
        if pattern.length ≤ (i0 + 1) % USIZE then
          if (i0 + 1) % USIZE ≤ j + 1 then
            Res.ok (some (j + 1 - (i0 + 1) % USIZE))
          else Res.panicked
        else kmpOuter equal pattern text next fuel ((i0 + 1) % USIZE) (j + 1)
      | Res.panicked => Res.panicked
      | Res.fuelOut => Res.fuelOut
    else Res.ok none

/-- Embeds `const STACK_NEXT_SIZE: usize = 32;`. -/
def STACK_NEXT_SIZE : Nat := 32

/-- The zero-initialized buffer that `knuth_morris_pratt_by` hands to
`prepare_kmp`: `vec![0; pattern.len() + 1]` when
`pattern.len() >= STACK_NEXT_SIZE`, and the full stack array
`[0; STACK_NEXT_SIZE]` otherwise. -/
def nextBuffer {α : Type} (pattern : List α) : List Nat :=
  if STACK_NEXT_SIZE ≤ pattern.length then List.replicate (pattern.length + 1) 0
  else List.replicate STACK_NEXT_SIZE 0

/-- Embeds `knuth_morris_pratt_by(text, pattern, equal)`: the two early
returns for the trivial pattern lengths, then table construction and the matcher loop. -/
def knuth_morris_pratt_by {α : Type} (fuel : Nat) (text pattern : List α)
    (equal : α → α → Bool) : Res (Option Nat) :=
  if pattern.length = 0 then Res.ok (some 0)
  else if text.length < pattern.length then Res.ok none
  else
    match prepare_kmp fuel pattern (nextBuffer pattern) equal with
    | Res.ok next => kmpOuter equal pattern text next fuel 0 0
    | Res.panicked => Res.panicked
    | Res.fuelOut => Res.fuelOut

/-- Embeds `knuth_morris_pratt(text, pattern)`: search under structural equality
(`PartialEq::eq`, which for these element types is decidable equality). -/
def knuth_morris_pratt {α : Type} [DecidableEq α] (fuel : Nat)
    (text pattern : List α) : Res (Option Nat) :=
  knuth_morris_pratt_by fuel text pattern fun a b => decide (a = b)

/-- Variant of `knuth_morris_pratt_by` whose table buffer always has exactly
`pattern.length + 1` entries, regardless of the pattern length.  Used to
state that the fixed 32-entry stack buffer is observably equivalent to an
exactly-sized buffer. -/
def knuth_morris_pratt_by_exact {α : Type} (fuel : Nat) (text pattern : List α)
    (equal : α → α → Bool) : Res (Option Nat) :=
  if pattern.length = 0 then Res.ok (some 0)
  else if text.length < pattern.length then Res.ok none
  else
    match prepare_kmp fuel pattern (List.replicate (pattern.length + 1) 0) equal with
    | Res.ok next => kmpOuter equal pattern text next fuel 0 0
    | Res.panicked => Res.panicked
    | Res.fuelOut => Res.fuelOut

/-- Fuel that is always sufficient for `knuth_morris_pratt_by` (proved below):
both loop nests finish within this many iterations. -/
def kmpFuel {α : Type} (text pattern : List α) : Nat :=
  text.length + 2 * pattern.length + 8


/-! ## Basic helpers -/

theorem mem_of_getElem?_eq_some {α : Type} {l : List α} {i : Nat} {a : α}
    (h : l[i]? = some a) : a ∈ l := by
  rw [List.getElem?_eq_some] at h
  obtain ⟨h1, h2⟩ := h
  exact h2 ▸ List.getElem_mem h1
theorem nextBuffer_length {α : Type} (pattern : List α) :
    (nextBuffer pattern).length =
      if STACK_NEXT_SIZE ≤ pattern.length then pattern.length + 1
      else STACK_NEXT_SIZE := by
  unfold nextBuffer
  split <;> simp

theorem nextBuffer_length_pos {α : Type} (pattern : List α) :
    0 < (nextBuffer pattern).length := by
  rw [nextBuffer_length]
  unfold STACK_NEXT_SIZE
  split <;> omega

theorem nextBuffer_length_ge {α : Type} (pattern : List α) :
    pattern.length + 1 ≤ (nextBuffer pattern).length := by
  rw [nextBuffer_length]
  unfold STACK_NEXT_SIZE
  split <;> omega

/-! ## Predicate congruence: the search consults the predicate only at pairs
whose first component is a pattern element -/

theorem prepareInner_congr {α : Type} (e1 e2 : α → α → Bool) (x : List α)
    (next : List Nat) (i : Nat)
    (h : ∀ a b, a ∈ x → b ∈ x → e1 a b = e2 a b) :
    ∀ fuel j, prepareInner e1 x next i fuel j = prepareInner e2 x next i fuel j := by
  intro fuel
  induction fuel with
  | zero => intro j; rfl
  | succ f ih =>
    intro j
    cases hnj : next[j]? with
    | none => simp [prepareInner, hnj]
    | some nextj =>
      cases hxi : x[i]? with
      | none => simp [prepareInner, hnj, hxi]
      | some xi =>
        cases hxj : x[j]? with
        | none => simp [prepareInner, hnj, hxi, hxj]
        | some xj =>
          simp only [prepareInner, hnj, hxi, hxj]
          rw [h xi xj (mem_of_getElem?_eq_some hxi) (mem_of_getElem?_eq_some hxj)]
          by_cases he : e2 xi xj = true
          · simp [he]
          · simp [he, ih]
theorem prepareOuter_congr {α : Type} (e1 e2 : α → α → Bool) (x : List α)
    (h : ∀ a b, a ∈ x → b ∈ x → e1 a b = e2 a b) :
    ∀ fuel i j next,
      prepareOuter e1 x fuel i j next = prepareOuter e2 x fuel i j next := by
  intro fuel
  induction fuel with
  | zero => intro i j next; rfl
  | succ f ih =>
    intro i j next
    by_cases hi : i < x.length
    · simp only [prepareOuter, if_pos hi]
      rw [prepareInner_congr e1 e2 x next i h]
      cases hres : prepareInner e2 x next i (f + 1) j with
      | panicked => rfl
      | fuelOut => rfl
      | ok j0 =>
        by_cases hend : i + 1 = x.length
        · simp [hend, ih]
        · cases hxi : x[i + 1]? with
          | none => simp [hend, hxi]
          | some xi =>
            cases hxj : x[(j0 + 1) % USIZE]? with
            | none => simp [hend, hxi, hxj]
            | some xj =>
              have hrw := h xi xj (mem_of_getElem?_eq_some hxi) (mem_of_getElem?_eq_some hxj)
              by_cases he : e2 xi xj = true
              · simp [hend, hxi, hxj, hrw, he, ih]
              · simp [hend, hxi, hxj, hrw, he, ih]
    · simp [prepareOuter, hi]
theorem kmpInner_congr {α : Type} (e1 e2 : α → α → Bool) (pattern text : List α)
    (next : List Nat) (j : Nat)
    (h : ∀ a b, a ∈ pattern → b ∈ text → e1 a b = e2 a b) :
    ∀ fuel i, kmpInner e1 pattern text next j fuel i
      = kmpInner e2 pattern text next j fuel i := by
  intro fuel
  induction fuel with
  | zero => intro i; rfl
  | succ f ih =>
    intro i
    cases hni : next[i]? with
    | none => simp [kmpInner, hni]
    | some nexti =>
      cases hpi : pattern[i]? with
      | none => simp [kmpInner, hni, hpi]
      | some pi =>
        cases htj : text[j]? with
        | none => simp [kmpInner, hni, hpi, htj]
        | some tj =>
          simp only [kmpInner, hni, hpi, htj]
          rw [h pi tj (mem_of_getElem?_eq_some hpi) (mem_of_getElem?_eq_some htj)]
          by_cases he : e2 pi tj = true
          · simp [he]
          · simp [he, ih]

theorem kmpOuter_congr {α : Type} (e1 e2 : α → α → Bool) (pattern text : List α)
    (next : List Nat)
    (h : ∀ a b, a ∈ pattern → b ∈ text → e1 a b = e2 a b) :
    ∀ fuel i j, kmpOuter e1 pattern text next fuel i j
      = kmpOuter e2 pattern text next fuel i j := by
  intro fuel
  induction fuel with
  | zero => intro i j; rfl
  | succ f ih =>
    intro i j
    by_cases hj : j < text.length
    · simp only [kmpOuter, if_pos hj]
      rw [kmpInner_congr e1 e2 pattern text next j h]
      cases kmpInner e2 pattern text next j (f + 1) i with
      | panicked => rfl
      | fuelOut => rfl
      | ok i0 => simp [ih]
    · simp [kmpOuter, hj]

/-- C10: Every call the search makes to the caller-supplied predicate has a
pattern element as its first argument (the builder compares
`(pattern[i], pattern[j])`, the matcher `(pattern[i], text[j])`), so two
predicates that agree on all pairs with a pattern element first and a pattern
or text element second produce identical search outcomes; the predicate is
never consulted at a pair with a text element in first position. -/
theorem kmp_by_depends_only_on_pattern_first_pairs {α : Type}
    (e1 e2 : α → α → Bool) (text pattern : List α)
    (h : ∀ a b, a ∈ pattern → b ∈ pattern ∨ b ∈ text → e1 a b = e2 a b) :
    ∀ fuel, knuth_morris_pratt_by fuel text pattern e1
      = knuth_morris_pratt_by fuel text pattern e2 := by
  intro fuel
  have hpp : ∀ a b, a ∈ pattern → b ∈ pattern → e1 a b = e2 a b :=
    fun a b ha hb => h a b ha (Or.inl hb)
  have hpt : ∀ a b, a ∈ pattern → b ∈ text → e1 a b = e2 a b :=
    fun a b ha hb => h a b ha (Or.inr hb)
  simp only [knuth_morris_pratt_by, prepare_kmp,
    if_pos (nextBuffer_length_pos pattern)]
  rw [prepareOuter_congr e1 e2 pattern hpp]
  cases prepareOuter e2 pattern fuel 0 usizeMax
      ((nextBuffer pattern).set 0 usizeMax) with
  | panicked => rfl
  | fuelOut => rfl
  | ok next => simp [kmpOuter_congr e1 e2 pattern text next hpt]

/-- Witness for C10 at a concrete instance: the two predicates agree at every
pair whose first component is the single pattern element `0`, but differ at
pairs with the text-only element `1` first. -/
theorem kmp_by_depends_only_on_pattern_first_pairs_witness :
    knuth_morris_pratt_by 100 [0, 1] [0] (fun a b : Nat => decide (a = b))
      = knuth_morris_pratt_by 100 [0, 1] [0]
          (fun a b : Nat => decide (a = b) || decide (a = 1)) := by
  apply kmp_by_depends_only_on_pattern_first_pairs
    (fun a b : Nat => decide (a = b))
    (fun a b : Nat => decide (a = b) || decide (a = 1)) [0, 1] [0]
  intro a b ha _
  have ha0 : a = 0 := by simpa using ha
  subst ha0
  simp

/-! ## Trivial-length edge cases -/

/-- C5: Searching for the empty pattern returns `Some(0)` immediately, for
every text (including the empty text), every predicate and any fuel: the
early return fires before any failure table is built. -/
theorem kmp_empty_pattern {α : Type} [DecidableEq α] (fuel : Nat)
    (text : List α) (equal : α → α → Bool) :
    knuth_morris_pratt_by fuel text [] equal = Res.ok (some 0) ∧
    knuth_morris_pratt fuel text [] = Res.ok (some 0) := by
  constructor <;> simp [knuth_morris_pratt, knuth_morris_pratt_by]

/-- C6: When the pattern is strictly longer than the text, both entry
points return `None`, for every predicate and any fuel. -/
theorem kmp_pattern_longer_than_text {α : Type} [DecidableEq α] (fuel : Nat)
    (text pattern : List α) (equal : α → α → Bool)
    (h : text.length < pattern.length) :
    knuth_morris_pratt_by fuel text pattern equal = Res.ok none ∧
    knuth_morris_pratt fuel text pattern = Res.ok none := by
  have h0 : pattern.length ≠ 0 := by omega
  constructor <;> simp [knuth_morris_pratt, knuth_morris_pratt_by, h0, h]

/-- Witness for C6 at a concrete instance. -/
theorem kmp_pattern_longer_than_text_witness :
    knuth_morris_pratt_by 5 [0] [1, 2] (fun a b : Nat => decide (a = b))
        = Res.ok none ∧
    knuth_morris_pratt 5 [0] ([1, 2] : List Nat) = Res.ok none :=
  kmp_pattern_longer_than_text 5 [0] [1, 2] (fun a b => decide (a = b))
    (by decide)

/-! ## Size of the table buffer (C8) -/

/-- C8 counterexample: for the one-element pattern `[0]` the buffer handed to
`prepare_kmp`, and the filled table it returns to the matcher, is the full
32-entry stack array, not a table of length `pattern.length + 1 = 2`. -/
theorem kmp_table_length_counterexample :
    (nextBuffer ([0] : List Nat)).length = 32 ∧
    ¬ (nextBuffer ([0] : List Nat)).length = [0].length + 1 ∧
    (match prepare_kmp 100 [0] (nextBuffer ([0] : List Nat))
        (fun a b : Nat => decide (a = b)) with
      | Res.ok t => t.length
      | _ => 0) = 32 := by
  refine ⟨by simp [nextBuffer, STACK_NEXT_SIZE], by simp [nextBuffer, STACK_NEXT_SIZE], ?_⟩
  decide

/-- C8 amended: The buffer handed to the matcher has length exactly
`pattern.length + 1` in the dynamic-allocation case
(`pattern.length ≥ STACK_NEXT_SIZE`), and length `STACK_NEXT_SIZE = 32`
(which is at least `pattern.length + 1`) in the stack case. -/
theorem kmp_table_length_amended {α : Type} (pattern : List α) :
    (nextBuffer pattern).length =
      (if STACK_NEXT_SIZE ≤ pattern.length then pattern.length + 1
       else STACK_NEXT_SIZE) ∧
    pattern.length + 1 ≤ (nextBuffer pattern).length :=
  ⟨nextBuffer_length pattern, nextBuffer_length_ge pattern⟩

/-! ## Structural invariants: no panic and termination, for any predicate -/

theorem USIZE_pos : 0 < USIZE := by
  unfold USIZE
  positivity

theorem usizeMax_add_one : usizeMax + 1 = USIZE := by
  have := USIZE_pos
  unfold usizeMax
  omega

theorem wrap_sentinel : (usizeMax + 1) % USIZE = 0 := by
  rw [usizeMax_add_one, Nat.mod_self]

theorem wrap_succ {j : Nat} (h : j < usizeMax) : (j + 1) % USIZE = j + 1 :=
  Nat.mod_eq_of_lt (by have := usizeMax_add_one; omega)

/-- Fuel sufficient for one run of a fallback chain starting at `j`. -/
def chainFuel (j : Nat) : Nat := if j = usizeMax then 1 else j + 2

theorem chainFuel_sentinel : chainFuel usizeMax = 1 := if_pos rfl

theorem chainFuel_real {j : Nat} (h : j ≠ usizeMax) : chainFuel j = j + 2 :=
  if_neg h

theorem chainFuel_pos (j : Nat) : 0 < chainFuel j := by
  unfold chainFuel
  split <;> omega

/-- Structural table invariant: every entry at index `k ≤ b` is present and is
either the sentinel or strictly smaller than its index. -/
def SInv (next : List Nat) (b : Nat) : Prop :=
  ∀ k, k ≤ b → ∃ v, next[k]? = some v ∧ (v = usizeMax ∨ v < k)

theorem SInv.below {next : List Nat} {b b2 : Nat} (h : SInv next b) (hb : b2 ≤ b) :
    SInv next b2 := fun k hk => h k (le_trans hk hb)

theorem SInv.length_gt {next : List Nat} {b : Nat} (h : SInv next b) :
    b < next.length := by
  obtain ⟨v, hv, _⟩ := h b le_rfl
  rw [List.getElem?_eq_some] at hv
  exact hv.1

/-- Structural run of the builder's inner fallback loop: it never panics, it
exhausts fuel only below the `chainFuel` bound of the starting chain value,
and its result is the sentinel or a chain value no larger than the start. -/
theorem prepareInner_struct {α : Type} (equal : α → α → Bool) (x : List α)
    (next : List Nat) (i b : Nat)
    (hlen : next.length ≤ usizeMax)
    (hbx : b < x.length)
    (hi : i < x.length)
    (hsinv : SInv next b) :
    ∀ fuel j, j = usizeMax ∨ j ≤ b →
      (prepareInner equal x next i fuel j = Res.fuelOut ∧ fuel < chainFuel j) ∨
      ∃ j2, prepareInner equal x next i fuel j = Res.ok j2 ∧
        (j = usizeMax → j2 = usizeMax) ∧
        (j2 = usizeMax ∨ (j2 ≤ j ∧ j2 ≤ b)) := by
  have hbmax : b < usizeMax := lt_of_lt_of_le hsinv.length_gt hlen
  intro fuel
  induction fuel with
  | zero =>
    intro j _
    exact Or.inl ⟨rfl, chainFuel_pos j⟩
  | succ f ih =>
    intro j hj
    rcases hj with hj | hj
    · subst hj
      have hnone : next[usizeMax]? = none := List.getElem?_eq_none hlen
      exact Or.inr ⟨usizeMax, by simp [prepareInner, hnone], fun _ => rfl,
        Or.inl rfl⟩
    · have hjmax : j ≠ usizeMax := by omega
      obtain ⟨v, hv, hvlt⟩ := hsinv j hj
      have hxi : x[i]? = some x[i] := List.getElem?_eq_getElem hi
      have hjx : j < x.length := lt_of_le_of_lt hj hbx
      have hxj : x[j]? = some x[j] := List.getElem?_eq_getElem hjx
      by_cases he : equal x[i] x[j] = true
      · exact Or.inr ⟨j, by simp [prepareInner, hv, hxi, hxj, he],
          fun hcontra => absurd hcontra hjmax, Or.inr ⟨le_rfl, hj⟩⟩
      · have hstep : prepareInner equal x next i (f + 1) j
            = prepareInner equal x next i f v := by
          simp [prepareInner, hv, hxi, hxj, he]
        have hvpre : v = usizeMax ∨ v ≤ b := by
          rcases hvlt with h1 | h1
          · exact Or.inl h1
          · exact Or.inr (by omega)
        rcases ih v hvpre with ⟨hout, hflt⟩ | ⟨j2, hok, hsent, hpost⟩
        · left
          refine ⟨by rw [hstep]; exact hout, ?_⟩
          rw [chainFuel_real hjmax]
          rcases hvlt with h1 | h1
          · rw [h1, chainFuel_sentinel] at hflt
            omega
          · rw [chainFuel_real (by omega)] at hflt
            omega
        · right
          refine ⟨j2, by rw [hstep]; exact hok, fun hcontra => absurd hcontra hjmax, ?_⟩
          rcases hvlt with h1 | h1
          · exact Or.inl (hsent h1)
          · rcases hpost with h2 | ⟨h2, h3⟩
            · exact Or.inl h2
            · exact Or.inr ⟨by omega, h3⟩

/-- Structural run of the builder's outer loop: for any predicate it never
panics, exhausts fuel only below an explicit bound, and on normal exit
returns a table of unchanged length whose entries up to `x.length` all
satisfy the sentinel-or-decreasing invariant. -/
theorem prepareOuter_struct {α : Type} (equal : α → α → Bool) (x : List α) :
    ∀ fuel i j next,
      next.length ≤ usizeMax →
      x.length < next.length →
      i ≤ x.length →
      (j = usizeMax ∨ j < i) →
      SInv next i →
      (prepareOuter equal x fuel i j next = Res.fuelOut ∧
        fuel < (x.length - i) + x.length + 2) ∨
      ∃ next2, prepareOuter equal x fuel i j next = Res.ok next2 ∧
        next2.length = next.length ∧ SInv next2 x.length := by
  intro fuel
  induction fuel with
  | zero =>
    intro i j next _ _ _ _ _
    exact Or.inl ⟨rfl, by omega⟩
  | succ f ih =>
    intro i j next hlen hxlen hi hij hsinv
    by_cases hguard : i < x.length
    · have hbx : i - 1 < x.length := by omega
      have hsinvb : SInv next (i - 1) := hsinv.below (by omega)
      have hjpre : j = usizeMax ∨ j ≤ i - 1 := by
        rcases hij with h | h
        · exact Or.inl h
        · exact Or.inr (by omega)
      rcases prepareInner_struct equal x next i (i - 1) hlen hbx hguard hsinvb
          (f + 1) j hjpre with ⟨hout, hlt⟩ | ⟨j0, hok, hsent, hpost⟩
      · left
        refine ⟨by simp [prepareOuter, hguard, hout], ?_⟩
        have hcf : chainFuel j ≤ x.length + 1 := by
          rcases hij with h | h
          · rw [h, chainFuel_sentinel]
            omega
          · rw [chainFuel_real (by omega)]
            omega
        omega
      · have hj0i : j0 = usizeMax ∨ j0 < i := by
          rcases hpost with h | ⟨h1, h2⟩
          · exact Or.inl h
          · exact Or.inr (by omega)
        have hj1 : (j0 + 1) % USIZE ≤ i := by
          rcases hj0i with h | h
          · rw [h, wrap_sentinel]
            omega
          · rw [wrap_succ (by omega)]
            omega
        have hwrite : i + 1 < next.length := by omega
        have hkey : ∀ v, (v = usizeMax ∨ v < i + 1) →
            (prepareOuter equal x f (i + 1) ((j0 + 1) % USIZE)
                (next.set (i + 1) v) = Res.fuelOut ∧
              f + 1 < (x.length - i) + x.length + 2) ∨
            ∃ next2, prepareOuter equal x f (i + 1) ((j0 + 1) % USIZE)
                (next.set (i + 1) v) = Res.ok next2 ∧
              next2.length = next.length ∧ SInv next2 x.length := by
          intro v hv
          have hsinv2 : SInv (next.set (i + 1) v) (i + 1) := by
            intro k hk
            by_cases hk2 : k = i + 1
            · subst hk2
              exact ⟨v, List.getElem?_set_self hwrite, hv⟩
            · obtain ⟨w2, hw2, hw2lt⟩ := hsinv k (by omega)
              exact ⟨w2, by rw [List.getElem?_set_ne (by omega)]; exact hw2, hw2lt⟩
          rcases ih (i + 1) ((j0 + 1) % USIZE) (next.set (i + 1) v)
              (by rw [List.length_set]; exact hlen)
              (by rw [List.length_set]; exact hxlen)
              (by omega) (Or.inr (by omega)) hsinv2 with ⟨h1, h2⟩ | ⟨n2, h1, h2, h3⟩
          · exact Or.inl ⟨h1, by omega⟩
          · exact Or.inr ⟨n2, h1, by rw [List.length_set] at h2; exact h2, h3⟩
        by_cases hend : i + 1 = x.length
        · have hne : ¬ (i + 1 ≠ x.length) := by omega
          rcases hkey ((j0 + 1) % USIZE) (Or.inr (by omega)) with ⟨h1, h2⟩ | ⟨n2, h1, h2, h3⟩
          · exact Or.inl ⟨by simp [prepareOuter, hguard, hok, hne, hwrite, h1], h2⟩
          · exact Or.inr ⟨n2, by simp [prepareOuter, hguard, hok, hne, hwrite, h1], h2, h3⟩
        · have hi1 : i + 1 < x.length := by omega
          have hxi : x[i + 1]? = some x[i + 1] := List.getElem?_eq_getElem hi1
          have hj1x : (j0 + 1) % USIZE < x.length := by omega
          have hxj : x[(j0 + 1) % USIZE]? = some x[(j0 + 1) % USIZE] :=
            List.getElem?_eq_getElem hj1x
          by_cases he : equal x[i + 1] x[(j0 + 1) % USIZE] = true
          · obtain ⟨w, hw, hwlt⟩ := hsinv ((j0 + 1) % USIZE) hj1
            rcases hkey w (by rcases hwlt with h | h; exact Or.inl h; exact Or.inr (by omega))
              with ⟨h1, h2⟩ | ⟨n2, h1, h2, h3⟩
            · exact Or.inl ⟨by simp [prepareOuter, hguard, hok, hend, hxi, hxj, he, hw, hwrite, h1], h2⟩
            · exact Or.inr ⟨n2, by simp [prepareOuter, hguard, hok, hend, hxi, hxj, he, hw, hwrite, h1], h2, h3⟩
          · rcases hkey ((j0 + 1) % USIZE) (Or.inr (by omega)) with ⟨h1, h2⟩ | ⟨n2, h1, h2, h3⟩
            · exact Or.inl ⟨by simp [prepareOuter, hguard, hok, hend, hxi, hxj, he, hwrite, h1], h2⟩
            · exact Or.inr ⟨n2, by simp [prepareOuter, hguard, hok, hend, hxi, hxj, he, hwrite, h1], h2, h3⟩
    · have hieq : i = x.length := by omega
      subst hieq
      exact Or.inr ⟨next, by simp [prepareOuter, hguard], rfl, hsinv⟩

/-- Structural run of the matcher's inner fallback loop: no panic, fuel
exhaustion only below the `chainFuel` bound, and the resulting chain value is
the sentinel or no larger than the start. -/
theorem kmpInner_struct {α : Type} (equal : α → α → Bool) (pattern text : List α)
    (next : List Nat) (j b : Nat)
    (hlen : next.length ≤ usizeMax)
    (hbp : b < pattern.length)
    (hj : j < text.length)
    (hsinv : SInv next b) :
    ∀ fuel i, i = usizeMax ∨ i ≤ b →
      (kmpInner equal pattern text next j fuel i = Res.fuelOut ∧
        fuel < chainFuel i) ∨
      ∃ i2, kmpInner equal pattern text next j fuel i = Res.ok i2 ∧
        (i = usizeMax → i2 = usizeMax) ∧
        (i2 = usizeMax ∨ (i2 ≤ i ∧ i2 ≤ b)) := by
  have hbmax : b < usizeMax := lt_of_lt_of_le hsinv.length_gt hlen
  intro fuel
  induction fuel with
  | zero =>
    intro i _
    exact Or.inl ⟨rfl, chainFuel_pos i⟩
  | succ f ih =>
    intro i hi
    rcases hi with hi | hi
    · subst hi
      have hnone : next[usizeMax]? = none := List.getElem?_eq_none hlen
      exact Or.inr ⟨usizeMax, by simp [kmpInner, hnone], fun _ => rfl, Or.inl rfl⟩
    · have himax : i ≠ usizeMax := by omega
      obtain ⟨v, hv, hvlt⟩ := hsinv i hi
      have hip : i < pattern.length := lt_of_le_of_lt hi hbp
      have hpi : pattern[i]? = some pattern[i] := List.getElem?_eq_getElem hip
      have htj : text[j]? = some text[j] := List.getElem?_eq_getElem hj
      by_cases he : equal pattern[i] text[j] = true
      · exact Or.inr ⟨i, by simp [kmpInner, hv, hpi, htj, he],
          fun hcontra => absurd hcontra himax, Or.inr ⟨le_rfl, hi⟩⟩
      · have hstep : kmpInner equal pattern text next j (f + 1) i
            = kmpInner equal pattern text next j f v := by
          simp [kmpInner, hv, hpi, htj, he]
        have hvpre : v = usizeMax ∨ v ≤ b := by
          rcases hvlt with h1 | h1
          · exact Or.inl h1
          · exact Or.inr (by omega)
        rcases ih v hvpre with ⟨hout, hflt⟩ | ⟨i2, hok, hsent, hpost⟩
        · left
          refine ⟨by rw [hstep]; exact hout, ?_⟩
          rw [chainFuel_real himax]
          rcases hvlt with h1 | h1
          · rw [h1, chainFuel_sentinel] at hflt
            omega
          · rw [chainFuel_real (by omega)] at hflt
            omega
        · right
          refine ⟨i2, by rw [hstep]; exact hok,
            fun hcontra => absurd hcontra himax, ?_⟩
          rcases hvlt with h1 | h1
          · exact Or.inl (hsent h1)
          · rcases hpost with h2 | ⟨h2, h3⟩
            · exact Or.inl h2
            · exact Or.inr ⟨by omega, h3⟩

/-- Structural run of the matcher's outer loop: for any predicate it never
panics (in particular the final subtraction never underflows) and exhausts
fuel only below an explicit bound. -/
theorem kmpOuter_struct {α : Type} (equal : α → α → Bool) (pattern text : List α)
    (next : List Nat)
    (hm : 0 < pattern.length)
    (hlen : next.length ≤ usizeMax)
    (hsinv : SInv next pattern.length) :
    ∀ fuel i j, i ≤ j → i < pattern.length →
      (kmpOuter equal pattern text next fuel i j = Res.fuelOut ∧
        fuel < (text.length - j) + pattern.length + 2) ∨
      ∃ r, kmpOuter equal pattern text next fuel i j = Res.ok r := by
  have hmlen : pattern.length < next.length := hsinv.length_gt
  have hmmax : pattern.length < usizeMax := lt_of_lt_of_le hmlen hlen
  have hsinvb : SInv next (pattern.length - 1) := hsinv.below (by omega)
  intro fuel
  induction fuel with
  | zero =>
    intro i j _ _
    exact Or.inl ⟨rfl, by omega⟩
  | succ f ih =>
    intro i j hij hip
    by_cases hguard : j < text.length
    · rcases kmpInner_struct equal pattern text next j (pattern.length - 1)
          hlen (by omega) hguard hsinvb (f + 1) i (Or.inr (by omega))
        with ⟨hout, hlt⟩ | ⟨i0, hok, hsent, hpost⟩
      · left
        refine ⟨by simp [kmpOuter, hguard, hout], ?_⟩
        rw [chainFuel_real (by omega)] at hlt
        omega
      · have hi1 : (i0 + 1) % USIZE ≤ j + 1 ∧ (i0 + 1) % USIZE ≤ pattern.length := by
          rcases hpost with h | ⟨h1, h2⟩
          · rw [h, wrap_sentinel]
            omega
          · rw [wrap_succ (by omega)]
            omega
        by_cases hret : pattern.length ≤ (i0 + 1) % USIZE
        · exact Or.inr ⟨some (j + 1 - (i0 + 1) % USIZE),
            by simp [kmpOuter, hguard, hok, hret, hi1.1]⟩
        · rcases ih ((i0 + 1) % USIZE) (j + 1) hi1.1 (by omega)
            with ⟨h1, h2⟩ | ⟨r, h1⟩
          · exact Or.inl ⟨by simp [kmpOuter, hguard, hok, hret, h1], by omega⟩
          · exact Or.inr ⟨r, by simp [kmpOuter, hguard, hok, hret, h1]⟩
    · exact Or.inr ⟨none, by simp [kmpOuter, hguard]⟩

/-- Structural run of `prepare_kmp`: no panic, and on normal exit a table of
unchanged length satisfying the sentinel-or-decreasing invariant up to
`x.length`. -/
theorem prepare_kmp_struct {α : Type} (equal : α → α → Bool) (x : List α)
    (next : List Nat) (fuel : Nat)
    (hlen : next.length ≤ usizeMax)
    (hxlen : x.length < next.length) :
    (prepare_kmp fuel x next equal = Res.fuelOut ∧ fuel < 2 * x.length + 2) ∨
    ∃ next2, prepare_kmp fuel x next equal = Res.ok next2 ∧
      next2.length = next.length ∧ SInv next2 x.length := by
  unfold prepare_kmp
  have hpos : 0 < next.length := by omega
  rw [if_pos hpos]
  have hsinv0 : SInv (next.set 0 usizeMax) 0 := by
    intro k hk
    have hk0 : k = 0 := by omega
    subst hk0
    exact ⟨usizeMax, List.getElem?_set_self (by omega), Or.inl rfl⟩
  rcases prepareOuter_struct equal x fuel 0 usizeMax (next.set 0 usizeMax)
      (by rw [List.length_set]; exact hlen)
      (by rw [List.length_set]; exact hxlen)
      (by omega) (Or.inl rfl) hsinv0 with ⟨h1, h2⟩ | ⟨n2, h1, h2, h3⟩
  · exact Or.inl ⟨h1, by omega⟩
  · exact Or.inr ⟨n2, h1, by rw [List.length_set] at h2; exact h2, h3⟩

theorem stack_size_le_usizeMax : STACK_NEXT_SIZE ≤ usizeMax := by
  unfold STACK_NEXT_SIZE usizeMax USIZE
  norm_num

theorem nextBuffer_length_le {α : Type} (pattern : List α)
    (h : pattern.length < usizeMax) :
    (nextBuffer pattern).length ≤ usizeMax := by
  rw [nextBuffer_length]
  have := stack_size_le_usizeMax
  split <;> omega

/-- C3: For every text, every pattern (within the `usize` length bound
that Rust slices guarantee), and every total predicate, the embedded
`knuth_morris_pratt_by` never panics at any fuel: every slice index it
performs is in bounds and the final subtraction `j - i` never underflows
(either failure would surface as `Res.panicked`). -/
theorem kmp_by_never_panics {α : Type} (text pattern : List α)
    (equal : α → α → Bool) (hp : pattern.length < usizeMax) :
    ∀ fuel, knuth_morris_pratt_by fuel text pattern equal ≠ Res.panicked := by
  intro fuel
  unfold knuth_morris_pratt_by
  by_cases h0 : pattern.length = 0
  · simp [h0]
  · rw [if_neg h0]
    by_cases h1 : text.length < pattern.length
    · simp [h1]
    · rw [if_neg h1]
      rcases prepare_kmp_struct equal pattern (nextBuffer pattern) fuel
          (nextBuffer_length_le pattern hp)
          (by have := nextBuffer_length_ge pattern; omega)
        with ⟨hf, _⟩ | ⟨n2, hok, hlen2, hsinv⟩
      · simp [hf]
      · rw [hok]
        rcases kmpOuter_struct equal pattern text n2 (by omega)
            (by rw [hlen2]; exact nextBuffer_length_le pattern hp) hsinv
            fuel 0 0 le_rfl (by omega) with ⟨hf2, _⟩ | ⟨r, hok2⟩
        · simp [hf2]
        · simp [hok2]

/-- Witness for C3 at a concrete instance. -/
theorem kmp_by_never_panics_witness :
    knuth_morris_pratt_by 3 [5] [1, 2] (fun a b : Nat => decide (a = b))
      ≠ Res.panicked :=
  kmp_by_never_panics [5] [1, 2] (fun a b : Nat => decide (a = b))
    (by unfold usizeMax USIZE; norm_num) 3

/-! ## Fuel monotonicity: a normal result is stable under extra fuel -/

theorem prepareInner_mono {α : Type} (equal : α → α → Bool) (x : List α)
    (next : List Nat) (i : Nat) :
    ∀ f1 f2 j r, f1 ≤ f2 →
      prepareInner equal x next i f1 j = Res.ok r →
      prepareInner equal x next i f2 j = Res.ok r := by
  intro f1
  induction f1 with
  | zero =>
    intro f2 j r _ h
    simp [prepareInner] at h
  | succ f ih =>
    intro f2 j r hle h
    cases f2 with
    | zero => omega
    | succ f2p =>
      cases hnj : next[j]? with
      | none =>
        simp only [prepareInner, hnj] at h ⊢
        exact h
      | some v =>
        cases hxi : x[i]? with
        | none => simp [prepareInner, hnj, hxi] at h
        | some xi =>
          cases hxj : x[j]? with
          | none => simp [prepareInner, hnj, hxi, hxj] at h
          | some xj =>
            by_cases he : equal xi xj = true
            · simp only [prepareInner, hnj, hxi, hxj, if_pos he] at h ⊢
              exact h
            · simp only [prepareInner, hnj, hxi, hxj, if_neg he] at h ⊢
              exact ih f2p v r (by omega) h

theorem prepareOuter_mono {α : Type} (equal : α → α → Bool) (x : List α) :
    ∀ f1 f2 i j next r, f1 ≤ f2 →
      prepareOuter equal x f1 i j next = Res.ok r →
      prepareOuter equal x f2 i j next = Res.ok r := by
  intro f1
  induction f1 with
  | zero =>
    intro f2 i j next r _ h
    simp [prepareOuter] at h
  | succ f ih =>
    intro f2 i j next r hle h
    cases f2 with
    | zero => omega
    | succ f2p =>
      by_cases hguard : i < x.length
      · simp only [prepareOuter, if_pos hguard] at h ⊢
        cases hin : prepareInner equal x next i (f + 1) j with
        | panicked => rw [hin] at h; simp at h
        | fuelOut => rw [hin] at h; simp at h
        | ok j0 =>
          rw [hin] at h
          rw [prepareInner_mono equal x next i (f + 1) (f2p + 1) j j0 (by omega) hin]
          by_cases hend : i + 1 ≠ x.length
          · simp only [if_pos hend] at h ⊢
            cases hxi : x[i + 1]? with
            | none => rw [hxi] at h; cases hxj : x[(j0 + 1) % USIZE]? <;>
                rw [hxj] at h <;> simp at h
            | some xi =>
              rw [hxi] at h
              cases hxj : x[(j0 + 1) % USIZE]? with
              | none => rw [hxj] at h; simp at h
              | some xj =>
                rw [hxj] at h
                by_cases he : equal xi xj = true
                · simp only [if_pos he] at h ⊢
                  cases hw : next[(j0 + 1) % USIZE]? with
                  | none => rw [hw] at h; simp at h
                  | some w =>
                    rw [hw] at h
                    by_cases hwr : i + 1 < next.length
                    · simp only [if_pos hwr] at h ⊢
                      exact ih f2p _ _ _ r (by omega) h
                    · simp only [if_neg hwr] at h
                      simp at h
                · simp only [if_neg he] at h ⊢
                  by_cases hwr : i + 1 < next.length
                  · simp only [if_pos hwr] at h ⊢
                    exact ih f2p _ _ _ r (by omega) h
                  · simp only [if_neg hwr] at h
                    simp at h
          · simp only [if_neg hend] at h ⊢
            by_cases hwr : i + 1 < next.length
            · simp only [if_pos hwr] at h ⊢
              exact ih f2p _ _ _ r (by omega) h
            · simp only [if_neg hwr] at h
              simp at h
      · simp only [prepareOuter, if_neg hguard] at h ⊢
        exact h

theorem kmpInner_mono {α : Type} (equal : α → α → Bool) (pattern text : List α)
    (next : List Nat) (j : Nat) :
    ∀ f1 f2 i r, f1 ≤ f2 →
      kmpInner equal pattern text next j f1 i = Res.ok r →
      kmpInner equal pattern text next j f2 i = Res.ok r := by
  intro f1
  induction f1 with
  | zero =>
    intro f2 i r _ h
    simp [kmpInner] at h
  | succ f ih =>
    intro f2 i r hle h
    cases f2 with
    | zero => omega
    | succ f2p =>
      cases hni : next[i]? with
      | none =>
        simp only [kmpInner, hni] at h ⊢
        exact h
      | some v =>
        cases hpi : pattern[i]? with
        | none => simp [kmpInner, hni, hpi] at h
        | some pi =>
          cases htj : text[j]? with
          | none => simp [kmpInner, hni, hpi, htj] at h
          | some tj =>
            by_cases he : equal pi tj = true
            · simp only [kmpInner, hni, hpi, htj, if_pos he] at h ⊢
              exact h
            · simp only [kmpInner, hni, hpi, htj, if_neg he] at h ⊢
              exact ih f2p v r (by omega) h

theorem kmpOuter_mono {α : Type} (equal : α → α → Bool) (pattern text : List α)
    (next : List Nat) :
    ∀ f1 f2 i j r, f1 ≤ f2 →
      kmpOuter equal pattern text next f1 i j = Res.ok r →
      kmpOuter equal pattern text next f2 i j = Res.ok r := by
  intro f1
  induction f1 with
  | zero =>
    intro f2 i j r _ h
    simp [kmpOuter] at h
  | succ f ih =>
    intro f2 i j r hle h
    cases f2 with
    | zero => omega
    | succ f2p =>
      by_cases hguard : j < text.length
      · simp only [kmpOuter, if_pos hguard] at h ⊢
        cases hin : kmpInner equal pattern text next j (f + 1) i with
        | panicked => rw [hin] at h; simp at h
        | fuelOut => rw [hin] at h; simp at h
        | ok i0 =>
          rw [hin] at h
          rw [kmpInner_mono equal pattern text next j (f + 1) (f2p + 1) i i0
            (by omega) hin]
          by_cases hret : pattern.length ≤ (i0 + 1) % USIZE
          · simp only [if_pos hret] at h ⊢
            exact h
          · simp only [if_neg hret] at h ⊢
            exact ih f2p _ _ r (by omega) h
      · simp only [kmpOuter, if_neg hguard] at h ⊢
        exact h

/-- A normal result of `knuth_morris_pratt_by` is stable under extra fuel. -/
theorem kmp_by_mono {α : Type} (equal : α → α → Bool) (text pattern : List α)
    (f1 f2 : Nat) (r : Option Nat) (hle : f1 ≤ f2)
    (h : knuth_morris_pratt_by f1 text pattern equal = Res.ok r) :
    knuth_morris_pratt_by f2 text pattern equal = Res.ok r := by
  unfold knuth_morris_pratt_by prepare_kmp at h ⊢
  by_cases h0 : pattern.length = 0
  · simp only [if_pos h0] at h ⊢
    exact h
  · simp only [if_neg h0] at h ⊢
    by_cases h1 : text.length < pattern.length
    · simp only [if_pos h1] at h ⊢
      exact h
    · simp only [if_neg h1] at h ⊢
      by_cases hpos : 0 < (nextBuffer pattern).length
      · simp only [if_pos hpos] at h ⊢
        cases hpre : prepareOuter equal pattern f1 0 usizeMax
            ((nextBuffer pattern).set 0 usizeMax) with
        | panicked => rw [hpre] at h; simp at h
        | fuelOut => rw [hpre] at h; simp at h
        | ok n2 =>
          rw [hpre] at h
          rw [prepareOuter_mono equal pattern f1 f2 0 usizeMax
            ((nextBuffer pattern).set 0 usizeMax) n2 hle hpre]
          exact kmpOuter_mono equal pattern text n2 f1 f2 0 0 r hle h
      · simp only [if_neg hpos] at h
        simp at h

/-- C4: The search terminates on every input: there is a result `r`
(a normal return, never a panic) that `knuth_morris_pratt_by` produces at
every fuel of at least `kmpFuel text pattern`; the two fallback loops strictly
decrease their chain value, so the linear fuel budget `kmpFuel` is always
enough. -/
theorem kmp_by_terminates {α : Type} (text pattern : List α)
    (equal : α → α → Bool) (hp : pattern.length < usizeMax) :
    ∃ r, ∀ fuel, kmpFuel text pattern ≤ fuel →
      knuth_morris_pratt_by fuel text pattern equal = Res.ok r := by
  unfold kmpFuel
  by_cases h0 : pattern.length = 0
  · exact ⟨some 0, fun fuel _ => by simp [knuth_morris_pratt_by, h0]⟩
  · by_cases h1 : text.length < pattern.length
    · refine ⟨none, fun fuel _ => ?_⟩
      unfold knuth_morris_pratt_by
      rw [if_neg h0, if_pos h1]
    · set B := text.length + 2 * pattern.length + 8 with hB
      have hmain : ∃ r, knuth_morris_pratt_by B text pattern equal = Res.ok r := by
        unfold knuth_morris_pratt_by
        rw [if_neg h0, if_neg h1]
        rcases prepare_kmp_struct equal pattern (nextBuffer pattern) B
            (nextBuffer_length_le pattern hp)
            (by have := nextBuffer_length_ge pattern; omega)
          with ⟨hf, hlt⟩ | ⟨n2, hok, hlen2, hsinv⟩
        · omega
        · rw [hok]
          rcases kmpOuter_struct equal pattern text n2 (by omega)
              (by rw [hlen2]; exact nextBuffer_length_le pattern hp) hsinv
              B 0 0 le_rfl (by omega) with ⟨hf2, hlt2⟩ | ⟨r, hok2⟩
          · omega
          · exact ⟨r, hok2⟩
      obtain ⟨r, hr⟩ := hmain
      exact ⟨r, fun fuel hfuel => kmp_by_mono equal text pattern B fuel r hfuel hr⟩

/-- Witness for C4 at a concrete instance. -/
theorem kmp_by_terminates_witness :
    ∃ r, ∀ fuel, kmpFuel [3, 1, 3, 2] [3, 2] ≤ fuel →
      knuth_morris_pratt_by fuel [3, 1, 3, 2] [3, 2]
        (fun a b : Nat => decide (a = b)) = Res.ok r :=
  kmp_by_terminates [3, 1, 3, 2] [3, 2] (fun a b : Nat => decide (a = b))
    (by unfold usizeMax USIZE; norm_num)

/-! ## Buffer transparency: the search reads the table only at indices up to
`pattern.length` (or at the out-of-bounds sentinel), so the oversized stack
buffer and an exactly sized buffer are interchangeable -/

/-- Two table buffers agree at every index up to `b`. -/
def AgreeUpTo (next1 next2 : List Nat) (b : Nat) : Prop :=
  ∀ k, k ≤ b → next1[k]? = next2[k]?

theorem prepareInner_par {α : Type} (equal : α → α → Bool) (x : List α)
    (next1 next2 : List Nat) (i b : Nat)
    (hlen1 : next1.length ≤ usizeMax)
    (hlen2 : next2.length ≤ usizeMax)
    (hagree : AgreeUpTo next1 next2 b)
    (hsinv : SInv next1 b) :
    ∀ fuel j, j = usizeMax ∨ j ≤ b →
      prepareInner equal x next1 i fuel j = prepareInner equal x next2 i fuel j := by
  intro fuel
  induction fuel with
  | zero => intro j _; rfl
  | succ f ih =>
    intro j hj
    rcases hj with hj | hj
    · subst hj
      have h1 : next1[usizeMax]? = none := List.getElem?_eq_none hlen1
      have h2 : next2[usizeMax]? = none := List.getElem?_eq_none hlen2
      simp [prepareInner, h1, h2]
    · obtain ⟨v, hv, hvlt⟩ := hsinv j hj
      have hv2 : next2[j]? = some v := by rw [← hagree j hj]; exact hv
      cases hxi : x[i]? with
      | none => cases hxj : x[j]? <;> simp [prepareInner, hv, hv2, hxi, hxj]
      | some xi =>
        cases hxj : x[j]? with
        | none => simp [prepareInner, hv, hv2, hxi, hxj]
        | some xj =>
          by_cases he : equal xi xj = true
          · simp [prepareInner, hv, hv2, hxi, hxj, he]
          · have hpre : v = usizeMax ∨ v ≤ b := by
              rcases hvlt with h | h
              · exact Or.inl h
              · exact Or.inr (by omega)
            simp only [prepareInner, hv, hv2, hxi, hxj, if_neg he]
            exact ih v hpre

theorem prepareOuter_par {α : Type} (equal : α → α → Bool) (x : List α) :
    ∀ fuel i j next1 next2,
      next1.length ≤ usizeMax → next2.length ≤ usizeMax →
      x.length < next1.length → x.length < next2.length →
      AgreeUpTo next1 next2 x.length →
      SInv next1 i → i ≤ x.length → (j = usizeMax ∨ j < i) →
      (prepareOuter equal x fuel i j next1 = Res.fuelOut ∧
        prepareOuter equal x fuel i j next2 = Res.fuelOut) ∨
      (∃ t1 t2, prepareOuter equal x fuel i j next1 = Res.ok t1 ∧
        prepareOuter equal x fuel i j next2 = Res.ok t2 ∧
        AgreeUpTo t1 t2 x.length ∧ SInv t1 x.length ∧
        t1.length = next1.length ∧ t2.length = next2.length) := by
  intro fuel
  induction fuel with
  | zero => intro i j next1 next2 _ _ _ _ _ _ _ _; exact Or.inl ⟨rfl, rfl⟩
  | succ f ih =>
    intro i j next1 next2 hlen1 hlen2 hx1 hx2 hagree hsinv hi hij
    by_cases hguard : i < x.length
    · have hjpre : j = usizeMax ∨ j ≤ i - 1 := by
        rcases hij with h | h
        · exact Or.inl h
        · exact Or.inr (by omega)
      have hsinvb : SInv next1 (i - 1) := hsinv.below (by omega)
      have hagreeb : AgreeUpTo next1 next2 (i - 1) :=
        fun k hk => hagree k (by omega)
      have hinner := prepareInner_par equal x next1 next2 i (i - 1)
        hlen1 hlen2 hagreeb hsinvb (f + 1) j hjpre
      rcases prepareInner_struct equal x next1 i (i - 1) hlen1 (by omega)
          hguard hsinvb (f + 1) j hjpre with ⟨hout, _⟩ | ⟨j0, hok, hsent, hpost⟩
      · exact Or.inl ⟨by simp [prepareOuter, hguard, hout],
          by simp [prepareOuter, hguard, ← hinner, hout]⟩
      · have hok2 : prepareInner equal x next2 i (f + 1) j = Res.ok j0 := by
          rw [← hinner]; exact hok
        have hj0i : j0 = usizeMax ∨ j0 < i := by
          rcases hpost with h | ⟨h1, h2⟩
          · exact Or.inl h
          · exact Or.inr (by omega)
        have hj1 : (j0 + 1) % USIZE ≤ i := by
          rcases hj0i with h | h
          · rw [h, wrap_sentinel]; omega
          · rw [wrap_succ (by omega)]; omega
        have hwrite1 : i + 1 < next1.length := by omega
        have hwrite2 : i + 1 < next2.length := by omega
        have hkey : ∀ v, (v = usizeMax ∨ v < i + 1) →
            (prepareOuter equal x f (i + 1) ((j0 + 1) % USIZE)
                (next1.set (i + 1) v) = Res.fuelOut ∧
              prepareOuter equal x f (i + 1) ((j0 + 1) % USIZE)
                (next2.set (i + 1) v) = Res.fuelOut) ∨
            (∃ t1 t2, prepareOuter equal x f (i + 1) ((j0 + 1) % USIZE)
                (next1.set (i + 1) v) = Res.ok t1 ∧
              prepareOuter equal x f (i + 1) ((j0 + 1) % USIZE)
                (next2.set (i + 1) v) = Res.ok t2 ∧
              AgreeUpTo t1 t2 x.length ∧ SInv t1 x.length ∧
              t1.length = next1.length ∧ t2.length = next2.length) := by
          intro v hv
          have hsinv2 : SInv (next1.set (i + 1) v) (i + 1) := by
            intro k hk
            by_cases hk2 : k = i + 1
            · subst hk2
              exact ⟨v, List.getElem?_set_self hwrite1, hv⟩
            · obtain ⟨w2, hw2, hw2lt⟩ := hsinv k (by omega)
              exact ⟨w2, by rw [List.getElem?_set_ne (by omega)]; exact hw2, hw2lt⟩
          have hagree2 : AgreeUpTo (next1.set (i + 1) v) (next2.set (i + 1) v)
              x.length := by
            intro k hk
            by_cases hk2 : k = i + 1
            · subst hk2
              rw [List.getElem?_set_self hwrite1, List.getElem?_set_self hwrite2]
            · rw [List.getElem?_set_ne (by omega), List.getElem?_set_ne (by omega)]
              exact hagree k hk
          rcases ih (i + 1) ((j0 + 1) % USIZE) (next1.set (i + 1) v)
              (next2.set (i + 1) v)
              (by rw [List.length_set]; exact hlen1)
              (by rw [List.length_set]; exact hlen2)
              (by rw [List.length_set]; exact hx1)
              (by rw [List.length_set]; exact hx2)
              hagree2 hsinv2 (by omega) (Or.inr (by omega))
            with ⟨h1, h2⟩ | ⟨t1, t2, h1, h2, h3, h4, h5, h6⟩
          · exact Or.inl ⟨h1, h2⟩
          · rw [List.length_set] at h5 h6
            exact Or.inr ⟨t1, t2, h1, h2, h3, h4, h5, h6⟩
        by_cases hend : i + 1 = x.length
        · have hne : ¬ (i + 1 ≠ x.length) := by omega
          rcases hkey ((j0 + 1) % USIZE) (Or.inr (by omega))
            with ⟨h1, h2⟩ | ⟨t1, t2, h1, h2, h3, h4, h5, h6⟩
          · exact Or.inl ⟨by simp [prepareOuter, hguard, hok, hne, hwrite1, h1],
              by simp [prepareOuter, hguard, hok2, hne, hwrite2, h2]⟩
          · exact Or.inr ⟨t1, t2,
              by simp [prepareOuter, hguard, hok, hne, hwrite1, h1],
              by simp [prepareOuter, hguard, hok2, hne, hwrite2, h2], h3, h4, h5, h6⟩
        · have hi1 : i + 1 < x.length := by omega
          have hxi : x[i + 1]? = some x[i + 1] := List.getElem?_eq_getElem hi1
          have hj1x : (j0 + 1) % USIZE < x.length := by omega
          have hxj : x[(j0 + 1) % USIZE]? = some x[(j0 + 1) % USIZE] :=
            List.getElem?_eq_getElem hj1x
          by_cases he : equal x[i + 1] x[(j0 + 1) % USIZE] = true
          · obtain ⟨w, hw, hwlt⟩ := hsinv ((j0 + 1) % USIZE) hj1
            have hw2 : next2[(j0 + 1) % USIZE]? = some w := by
              rw [← hagree ((j0 + 1) % USIZE) (by omega)]; exact hw
            rcases hkey w (by rcases hwlt with h | h; exact Or.inl h; exact Or.inr (by omega))
              with ⟨h1, h2⟩ | ⟨t1, t2, h1, h2, h3, h4, h5, h6⟩
            · exact Or.inl
                ⟨by simp [prepareOuter, hguard, hok, hend, hxi, hxj, he, hw, hwrite1, h1],
                 by simp [prepareOuter, hguard, hok2, hend, hxi, hxj, he, hw2, hwrite2, h2]⟩
            · exact Or.inr ⟨t1, t2,
                by simp [prepareOuter, hguard, hok, hend, hxi, hxj, he, hw, hwrite1, h1],
                by simp [prepareOuter, hguard, hok2, hend, hxi, hxj, he, hw2, hwrite2, h2],
                h3, h4, h5, h6⟩
          · rcases hkey ((j0 + 1) % USIZE) (Or.inr (by omega))
              with ⟨h1, h2⟩ | ⟨t1, t2, h1, h2, h3, h4, h5, h6⟩
            · exact Or.inl
                ⟨by simp [prepareOuter, hguard, hok, hend, hxi, hxj, he, hwrite1, h1],
                 by simp [prepareOuter, hguard, hok2, hend, hxi, hxj, he, hwrite2, h2]⟩
            · exact Or.inr ⟨t1, t2,
                by simp [prepareOuter, hguard, hok, hend, hxi, hxj, he, hwrite1, h1],
                by simp [prepareOuter, hguard, hok2, hend, hxi, hxj, he, hwrite2, h2],
                h3, h4, h5, h6⟩
    · have hieq : i = x.length := by omega
      subst hieq
      exact Or.inr ⟨next1, next2, by simp [prepareOuter, hguard],
        by simp [prepareOuter, hguard], hagree, hsinv, rfl, rfl⟩

theorem kmpInner_par {α : Type} (equal : α → α → Bool) (pattern text : List α)
    (next1 next2 : List Nat) (j b : Nat)
    (hlen1 : next1.length ≤ usizeMax)
    (hlen2 : next2.length ≤ usizeMax)
    (hagree : AgreeUpTo next1 next2 b)
    (hsinv : SInv next1 b) :
    ∀ fuel i, i = usizeMax ∨ i ≤ b →
      kmpInner equal pattern text next1 j fuel i
        = kmpInner equal pattern text next2 j fuel i := by
  intro fuel
  induction fuel with
  | zero => intro i _; rfl
  | succ f ih =>
    intro i hi
    rcases hi with hi | hi
    · subst hi
      have h1 : next1[usizeMax]? = none := List.getElem?_eq_none hlen1
      have h2 : next2[usizeMax]? = none := List.getElem?_eq_none hlen2
      simp [kmpInner, h1, h2]
    · obtain ⟨v, hv, hvlt⟩ := hsinv i hi
      have hv2 : next2[i]? = some v := by rw [← hagree i hi]; exact hv
      cases hpi : pattern[i]? with
      | none => cases htj : text[j]? <;> simp [kmpInner, hv, hv2, hpi, htj]
      | some pi =>
        cases htj : text[j]? with
        | none => simp [kmpInner, hv, hv2, hpi, htj]
        | some tj =>
          by_cases he : equal pi tj = true
          · simp [kmpInner, hv, hv2, hpi, htj, he]
          · have hpre : v = usizeMax ∨ v ≤ b := by
              rcases hvlt with h | h
              · exact Or.inl h
              · exact Or.inr (by omega)
            simp only [kmpInner, hv, hv2, hpi, htj, if_neg he]
            exact ih v hpre

theorem kmpOuter_par {α : Type} (equal : α → α → Bool) (pattern text : List α)
    (next1 next2 : List Nat)
    (hm : 0 < pattern.length)
    (hlen1 : next1.length ≤ usizeMax)
    (hlen2 : next2.length ≤ usizeMax)
    (hagree : AgreeUpTo next1 next2 pattern.length)
    (hsinv : SInv next1 pattern.length) :
    ∀ fuel i j, i < pattern.length →
      kmpOuter equal pattern text next1 fuel i j
        = kmpOuter equal pattern text next2 fuel i j := by
  have hsinvb : SInv next1 (pattern.length - 1) := hsinv.below (by omega)
  have hagreeb : AgreeUpTo next1 next2 (pattern.length - 1) :=
    fun k hk => hagree k (by omega)
  intro fuel
  induction fuel with
  | zero => intro i j _; rfl
  | succ f ih =>
    intro i j hip
    by_cases hguard : j < text.length
    · have hinner := kmpInner_par equal pattern text next1 next2 j
        (pattern.length - 1) hlen1 hlen2 hagreeb hsinvb (f + 1) i
        (Or.inr (by omega))
      rcases kmpInner_struct equal pattern text next1 j (pattern.length - 1)
          hlen1 (by omega) hguard hsinvb (f + 1) i (Or.inr (by omega))
        with ⟨hout, _⟩ | ⟨i0, hok, hsent, hpost⟩
      · simp [kmpOuter, hguard, hout, ← hinner]
      · have hok2 : kmpInner equal pattern text next2 j (f + 1) i = Res.ok i0 := by
          rw [← hinner]; exact hok
        by_cases hret : pattern.length ≤ (i0 + 1) % USIZE
        · simp [kmpOuter, hguard, hok, hok2, hret]
        · simp only [kmpOuter, if_pos hguard, hok, hok2, if_neg hret]
          exact ih ((i0 + 1) % USIZE) (j + 1) (by omega)
    · simp [kmpOuter, hguard]

/-- C9: The allocation strategy is observably transparent: for every text,
pattern and predicate (and any fuel), the result computed with the buffer
`knuth_morris_pratt_by` actually uses (the fixed 32-entry stack array when
`pattern.length < STACK_NEXT_SIZE`) equals the result computed with a buffer
of exactly `pattern.length + 1` entries; entries of the stack buffer beyond
index `pattern.length` are never consulted. -/
theorem kmp_by_stack_buffer_transparent {α : Type} (fuel : Nat)
    (text pattern : List α) (equal : α → α → Bool) :
    knuth_morris_pratt_by fuel text pattern equal
      = knuth_morris_pratt_by_exact fuel text pattern equal := by
  unfold knuth_morris_pratt_by knuth_morris_pratt_by_exact
  by_cases h0 : pattern.length = 0
  · simp [h0]
  · rw [if_neg h0, if_neg h0]
    by_cases h1 : text.length < pattern.length
    · simp [h1]
    · rw [if_neg h1, if_neg h1]
      by_cases hsl : STACK_NEXT_SIZE ≤ pattern.length
      · rw [show nextBuffer pattern = List.replicate (pattern.length + 1) 0 from
          by unfold nextBuffer; rw [if_pos hsl]]
      · rw [show nextBuffer pattern = List.replicate STACK_NEXT_SIZE 0 from
          by unfold nextBuffer; rw [if_neg hsl]]
        have hm1 : 1 ≤ pattern.length := by omega
        have hmlt : pattern.length < STACK_NEXT_SIZE := by omega
        have h32 : (0 : Nat) < STACK_NEXT_SIZE := by
          unfold STACK_NEXT_SIZE
          omega
        unfold prepare_kmp
        rw [if_pos (by simp; omega : 0 < (List.replicate STACK_NEXT_SIZE (0 : Nat)).length),
          if_pos (by simp : 0 < (List.replicate (pattern.length + 1) (0 : Nat)).length)]
        have hagree : AgreeUpTo ((List.replicate STACK_NEXT_SIZE 0).set 0 usizeMax)
            ((List.replicate (pattern.length + 1) 0).set 0 usizeMax)
            pattern.length := by
          intro k hk
          by_cases hk0 : k = 0
          · subst hk0
            rw [List.getElem?_set_self (by simp; omega),
              List.getElem?_set_self (by simp)]
          · rw [List.getElem?_set_ne (by omega), List.getElem?_set_ne (by omega),
              List.getElem?_replicate, List.getElem?_replicate,
              if_pos (by omega), if_pos (by omega)]
        have hsinv0 : SInv ((List.replicate STACK_NEXT_SIZE 0).set 0 usizeMax) 0 := by
          intro k hk
          have hk0 : k = 0 := by omega
          subst hk0
          exact ⟨usizeMax, List.getElem?_set_self (by simp; omega), Or.inl rfl⟩
        have hle1 : ((List.replicate STACK_NEXT_SIZE (0 : Nat)).set 0 usizeMax).length
            ≤ usizeMax := by
          rw [List.length_set, List.length_replicate]
          exact stack_size_le_usizeMax
        have hle2 : ((List.replicate (pattern.length + 1) (0 : Nat)).set 0 usizeMax).length
            ≤ usizeMax := by
          rw [List.length_set, List.length_replicate]
          have := stack_size_le_usizeMax
          omega
        rcases prepareOuter_par equal pattern fuel 0 usizeMax
            ((List.replicate STACK_NEXT_SIZE 0).set 0 usizeMax)
            ((List.replicate (pattern.length + 1) 0).set 0 usizeMax)
            hle1 hle2
            (by rw [List.length_set, List.length_replicate]; omega)
            (by rw [List.length_set, List.length_replicate]; omega)
            hagree hsinv0 (by omega) (Or.inl rfl)
          with ⟨hf1, hf2⟩ | ⟨t1, t2, hok1, hok2, hagr, hsinv1, hl1, hl2⟩
        · rw [hf1, hf2]
        · rw [hok1, hok2]
          have ht1 : t1.length ≤ usizeMax := by rw [hl1]; exact hle1
          have ht2 : t2.length ≤ usizeMax := by rw [hl2]; exact hle2
          exact kmpOuter_par equal pattern text t1 t2 (by omega) ht1 ht2 hagr
            hsinv1 fuel 0 0 (by omega)

/-! ## The reference search (specification side)

`referenceSearch` is the naive first-occurrence substring search described by
the specification: try offsets `k = 0, 1, 2, ...` in order and return the
first at which the pattern matches the text elementwise under the supplied
predicate.  It is written from the specification's words, as the trusted
reference that `knuth_morris_pratt_by` is compared with. -/

/-- Predicate `matchAtB equal text pattern k` holds iff the pattern fits at offset `k`
and matches the text elementwise there under `equal`. -/
def matchAtB {α : Type} (equal : α → α → Bool) (text pattern : List α)
    (k : Nat) : Bool :=
  decide (k + pattern.length ≤ text.length) &&
  (List.range pattern.length).all fun x =>
    match pattern[x]?, text[k + x]? with
    | some a, some b => equal a b
    | _, _ => false

/-- Naive scan from offset `k`, trying `c` consecutive offsets. -/
def refSearchFrom {α : Type} (equal : α → α → Bool) (text pattern : List α) :
    Nat → Nat → Option Nat
  | _, 0 => none
  | k, c + 1 =>
    if matchAtB equal text pattern k then some k
    else refSearchFrom equal text pattern (k + 1) c

/-- The reference first-occurrence search: the smallest offset at which the
pattern matches the text elementwise, if any. -/
def referenceSearch {α : Type} (equal : α → α → Bool) (text pattern : List α) :
    Option Nat :=
  refSearchFrom equal text pattern 0 (text.length + 1)

/-! ## Functional correctness toolkit: equivalence predicates, elementwise
agreement, borders of pattern prefixes -/

/-- The supplied predicate is a well-behaved (reflexive, symmetric,
transitive) Boolean equivalence. -/
def IsEqv {α : Type} (equal : α → α → Bool) : Prop :=
  (∀ a, equal a a = true) ∧
  (∀ a b, equal a b = true → equal b a = true) ∧
  (∀ a b c, equal a b = true → equal b c = true → equal a c = true)

theorem IsEqv.decideEq {α : Type} [DecidableEq α] :
    IsEqv (fun a b : α => decide (a = b)) := by
  refine ⟨fun a => by simp, fun a b h => by simp_all, fun a b c h1 h2 => by simp_all⟩

/-- Elementwise agreement at one pair of positions: both lookups are in
bounds and the predicate accepts the pair. -/
def EqIdx {α : Type} (equal : α → α → Bool) (u v : List α) (a b : Nat) : Prop :=
  ∃ ua vb, u[a]? = some ua ∧ v[b]? = some vb ∧ equal ua vb = true

theorem EqIdx.lt1 {α : Type} {equal : α → α → Bool} {u v : List α} {a b : Nat}
    (h : EqIdx equal u v a b) : a < u.length := by
  obtain ⟨ua, vb, h1, _, _⟩ := h
  rw [List.getElem?_eq_some] at h1
  exact h1.1

theorem EqIdx.lt2 {α : Type} {equal : α → α → Bool} {u v : List α} {a b : Nat}
    (h : EqIdx equal u v a b) : b < v.length := by
  obtain ⟨ua, vb, _, h2, _⟩ := h
  rw [List.getElem?_eq_some] at h2
  exact h2.1

theorem EqIdx.of_getElem {α : Type} {equal : α → α → Bool} {u v : List α}
    {a b : Nat} (h1 : a < u.length) (h2 : b < v.length)
    (he : equal u[a] v[b] = true) : EqIdx equal u v a b :=
  ⟨u[a], v[b], List.getElem?_eq_getElem h1, List.getElem?_eq_getElem h2, he⟩

theorem EqIdx.getElem {α : Type} {equal : α → α → Bool} {u v : List α}
    {a b : Nat} (h : EqIdx equal u v a b) (h1 : a < u.length)
    (h2 : b < v.length) : equal u[a] v[b] = true := by
  obtain ⟨ua, vb, hu, hv, he⟩ := h
  rw [List.getElem?_eq_getElem h1] at hu
  rw [List.getElem?_eq_getElem h2] at hv
  cases hu
  cases hv
  exact he

theorem EqIdx.symm {α : Type} {equal : α → α → Bool} {u v : List α} {a b : Nat}
    (hEqv : IsEqv equal) (h : EqIdx equal u v a b) : EqIdx equal v u b a := by
  obtain ⟨ua, vb, h1, h2, he⟩ := h
  exact ⟨vb, ua, h2, h1, hEqv.2.1 ua vb he⟩

theorem EqIdx.trans {α : Type} {equal : α → α → Bool} {u v w : List α}
    {a b c : Nat} (hEqv : IsEqv equal) (h1 : EqIdx equal u v a b)
    (h2 : EqIdx equal v w b c) : EqIdx equal u w a c := by
  obtain ⟨ua, vb, g1, g2, ge⟩ := h1
  obtain ⟨vb2, wc, g3, g4, ge2⟩ := h2
  rw [g2] at g3
  cases g3
  exact ⟨ua, wc, g1, g4, hEqv.2.2 ua vb wc ge ge2⟩

/-- Borders: `InB equal p i k` states that the length-`k` prefix of `p` is a proper border of the
length-`i` prefix of `p` (elementwise under `equal`). -/
def InB {α : Type} (equal : α → α → Bool) (p : List α) (i k : Nat) : Prop :=
  k < i ∧ ∀ x, x < k → EqIdx equal p p x (i - k + x)

theorem InB.zero {α : Type} {equal : α → α → Bool} {p : List α} {i : Nat}
    (h : 0 < i) : InB equal p i 0 :=
  ⟨h, fun x hx => absurd hx (by omega)⟩

/-- A shorter border of the same prefix is a border of a longer one. -/
theorem InB.sub {α : Type} {equal : α → α → Bool} {p : List α} {i k1 k2 : Nat}
    (hEqv : IsEqv equal) (h1 : InB equal p i k1) (h2 : InB equal p i k2)
    (hlt : k1 < k2) : InB equal p k2 k1 := by
  obtain ⟨hk1, ha⟩ := h1
  obtain ⟨hk2, hb⟩ := h2
  refine ⟨hlt, fun x hx => ?_⟩
  have e1 : EqIdx equal p p x (i - k1 + x) := ha x hx
  have e2 : EqIdx equal p p (k2 - k1 + x) (i - k2 + (k2 - k1 + x)) :=
    hb (k2 - k1 + x) (by omega)
  have harith : i - k2 + (k2 - k1 + x) = i - k1 + x := by omega
  rw [harith] at e2
  exact e1.trans hEqv (e2.symm hEqv)

/-- A border of a border is a border. -/
theorem InB.comp {α : Type} {equal : α → α → Bool} {p : List α} {i v w : Nat}
    (hEqv : IsEqv equal) (h1 : InB equal p v w) (h2 : InB equal p i v) :
    InB equal p i w := by
  obtain ⟨hw, ha⟩ := h1
  obtain ⟨hv, hb⟩ := h2
  refine ⟨by omega, fun x hx => ?_⟩
  have e1 : EqIdx equal p p x (v - w + x) := ha x hx
  have e2 : EqIdx equal p p (v - w + x) (i - v + (v - w + x)) := hb (v - w + x) (by omega)
  have harith : i - v + (v - w + x) = i - w + x := by omega
  rw [harith] at e2
  exact e1.trans hEqv e2

/-- Extending a border by one matching element. -/
theorem InB.ext {α : Type} {equal : α → α → Bool} {p : List α} {i k : Nat}
    (h : InB equal p i k) (he : EqIdx equal p p k i) :
    InB equal p (i + 1) (k + 1) := by
  obtain ⟨hk, ha⟩ := h
  refine ⟨by omega, fun x hx => ?_⟩
  by_cases hxk : x < k
  · have harith : i + 1 - (k + 1) + x = i - k + x := by omega
    rw [harith]
    exact ha x hxk
  · have hxe : x = k := by omega
    rw [hxe]
    have harith : i + 1 - (k + 1) + k = i := by omega
    rw [harith]
    exact he

/-- Restricting a nonempty border by its last element. -/
theorem InB.restrict {α : Type} {equal : α → α → Bool} {p : List α} {i k : Nat}
    (h : InB equal p (i + 1) (k + 1)) :
    InB equal p i k ∧ EqIdx equal p p k i := by
  obtain ⟨hk, ha⟩ := h
  constructor
  · refine ⟨by omega, fun x hx => ?_⟩
    have := ha x (by omega)
    have harith : i + 1 - (k + 1) + x = i - k + x := by omega
    rw [harith] at this
    exact this
  · have := ha k (by omega)
    have harith : i + 1 - (k + 1) + k = i := by omega
    rw [harith] at this
    exact this

/-- The strong failure-table property of one table entry `v` for position `k`:
`v` is the sentinel or a proper border of the length-`k` prefix, and every
border of that prefix lying strictly above `v` extends by an element
`equal` to `p[k]` (so a mismatch at `k` also rules those borders out). -/
def StrongAt {α : Type} (equal : α → α → Bool) (p : List α) (k v : Nat) : Prop :=
  (v = usizeMax ∨ InB equal p k v) ∧
  (∀ k2, InB equal p k k2 → (v = usizeMax ∨ v < k2) → EqIdx equal p p k k2)

/-- All table entries up to index `b` are present and strong. -/
def TableOK {α : Type} (equal : α → α → Bool) (p : List α) (next : List Nat)
    (b : Nat) : Prop :=
  ∀ k, k ≤ b → ∃ v, next[k]? = some v ∧ StrongAt equal p k v

theorem TableOK.shrink {α : Type} {equal : α → α → Bool} {p : List α}
    {next : List Nat} {b b2 : Nat} (h : TableOK equal p next b) (hb : b2 ≤ b) :
    TableOK equal p next b2 := fun k hk => h k (le_trans hk hb)

/-! ## Characterizing the reference search -/

theorem matchAtB_iff {α : Type} (equal : α → α → Bool) (text pattern : List α)
    (k : Nat) :
    matchAtB equal text pattern k = true ↔
      (k + pattern.length ≤ text.length ∧
       ∀ x, x < pattern.length → EqIdx equal pattern text x (k + x)) := by
  unfold matchAtB
  rw [Bool.and_eq_true, decide_eq_true_eq, List.all_eq_true]
  constructor
  · rintro ⟨hlen, hall⟩
    refine ⟨hlen, fun x hx => ?_⟩
    have hmem : x ∈ List.range pattern.length := List.mem_range.mpr hx
    have hthis := hall x hmem
    have hp : pattern[x]? = some pattern[x] := List.getElem?_eq_getElem hx
    have ht : text[k + x]? = some text[k + x] :=
      List.getElem?_eq_getElem (by omega)
    rw [hp, ht] at hthis
    exact ⟨pattern[x], text[k + x], hp, ht, hthis⟩
  · rintro ⟨hlen, hall⟩
    refine ⟨hlen, fun x hmem => ?_⟩
    have hx := List.mem_range.mp hmem
    obtain ⟨a, b, hp, ht, he⟩ := hall x hx
    rw [hp, ht]
    exact he

theorem refSearchFrom_eq_some {α : Type} (equal : α → α → Bool)
    (text pattern : List α) :
    ∀ c k k0, k ≤ k0 → k0 < k + c →
      matchAtB equal text pattern k0 = true →
      (∀ j, k ≤ j → j < k0 → matchAtB equal text pattern j = false) →
      refSearchFrom equal text pattern k c = some k0 := by
  intro c
  induction c with
  | zero => intro k k0 h1 h2 _ _; omega
  | succ cp ih =>
    intro k k0 h1 h2 hm hnone
    by_cases hk : k = k0
    · subst hk
      simp [refSearchFrom, hm]
    · have hfalse : matchAtB equal text pattern k = false :=
        hnone k le_rfl (by omega)
      simp only [refSearchFrom, hfalse, Bool.false_eq_true, if_false]
      exact ih (k + 1) k0 (by omega) (by omega) hm
        (fun j hj1 hj2 => hnone j (by omega) hj2)

theorem refSearchFrom_eq_none {α : Type} (equal : α → α → Bool)
    (text pattern : List α) :
    ∀ c k, (∀ j, k ≤ j → j < k + c → matchAtB equal text pattern j = false) →
      refSearchFrom equal text pattern k c = none := by
  intro c
  induction c with
  | zero => intro k _; rfl
  | succ cp ih =>
    intro k hnone
    have hfalse : matchAtB equal text pattern k = false :=
      hnone k le_rfl (by omega)
    simp only [refSearchFrom, hfalse, Bool.false_eq_true, if_false]
    exact ih (k + 1) (fun j hj1 hj2 => hnone j (by omega) (by omega))

theorem refSearchFrom_some_elim {α : Type} (equal : α → α → Bool)
    (text pattern : List α) :
    ∀ c k k0, refSearchFrom equal text pattern k c = some k0 →
      matchAtB equal text pattern k0 = true ∧ k ≤ k0 ∧
      ∀ j, k ≤ j → j < k0 → matchAtB equal text pattern j = false := by
  intro c
  induction c with
  | zero => intro k k0 h; simp [refSearchFrom] at h
  | succ cp ih =>
    intro k k0 h
    by_cases hm : matchAtB equal text pattern k = true
    · simp only [refSearchFrom, hm, if_true, Option.some.injEq] at h
      subst h
      exact ⟨hm, le_rfl, fun j hj1 hj2 => by omega⟩
    · simp only [refSearchFrom, hm, if_false] at h
      obtain ⟨h1, h2, h3⟩ := ih (k + 1) k0 h
      refine ⟨h1, by omega, fun j hj1 hj2 => ?_⟩
      by_cases hjk : j = k
      · subst hjk
        exact Bool.not_eq_true _ ▸ (Bool.eq_false_iff.mpr hm)
      · exact h3 j (by omega) hj2

theorem referenceSearch_eq_some {α : Type} (equal : α → α → Bool)
    (text pattern : List α) (k0 : Nat)
    (hm : matchAtB equal text pattern k0 = true)
    (hmin : ∀ j, j < k0 → matchAtB equal text pattern j = false) :
    referenceSearch equal text pattern = some k0 := by
  unfold referenceSearch
  have hk0 : k0 ≤ text.length := by
    have := ((matchAtB_iff equal text pattern k0).mp hm).1
    omega
  exact refSearchFrom_eq_some equal text pattern (text.length + 1) 0 k0
    (by omega) (by omega) hm (fun j _ hj => hmin j hj)

theorem referenceSearch_eq_none {α : Type} (equal : α → α → Bool)
    (text pattern : List α)
    (h : ∀ j, matchAtB equal text pattern j = false) :
    referenceSearch equal text pattern = none :=
  refSearchFrom_eq_none equal text pattern (text.length + 1) 0
    (fun j _ _ => h j)

theorem referenceSearch_some_elim {α : Type} (equal : α → α → Bool)
    (text pattern : List α) (k0 : Nat)
    (h : referenceSearch equal text pattern = some k0) :
    matchAtB equal text pattern k0 = true ∧
    ∀ j, j < k0 → matchAtB equal text pattern j = false := by
  obtain ⟨h1, _, h3⟩ :=
    refSearchFrom_some_elim equal text pattern (text.length + 1) 0 k0 h
  exact ⟨h1, fun j hj => h3 j (by omega) hj⟩

/-! ## Full correctness of the table builder -/

/-- Run of the builder's inner fallback loop under the table-strength
invariant: it finds the longest border of the length-`i` prefix that extends
by an element `equal` to `p[i]`, or the sentinel when no border extends. -/
theorem prepareInner_build {α : Type} (equal : α → α → Bool) (p : List α)
    (next : List Nat) (i : Nat)
    (hEqv : IsEqv equal)
    (hlen : next.length ≤ usizeMax)
    (hi : i < p.length)
    (htab : TableOK equal p next (i - 1)) :
    ∀ fuel j,
      (j = usizeMax ∨ (j ≤ i - 1 ∧ InB equal p i j)) →
      (∀ k, InB equal p i k → (j = usizeMax ∨ j < k) → ¬ EqIdx equal p p i k) →
      chainFuel j ≤ fuel →
      ∃ j2, prepareInner equal p next i fuel j = Res.ok j2 ∧
        ((j2 = usizeMax ∧ ∀ k, InB equal p i k → ¬ EqIdx equal p p i k) ∨
         (InB equal p i j2 ∧ EqIdx equal p p i j2 ∧
           ∀ k, InB equal p i k → j2 < k → ¬ EqIdx equal p p i k)) := by
  intro fuel
  induction fuel with
  | zero =>
    intro j _ _ hfuel
    have := chainFuel_pos j
    omega
  | succ f ih =>
    intro j hstart hacc hfuel
    rcases hstart with hj | ⟨hjb, hjInB⟩
    · subst hj
      have hnone : next[usizeMax]? = none := List.getElem?_eq_none hlen
      exact ⟨usizeMax, by simp [prepareInner, hnone],
        Or.inl ⟨rfl, fun k hk => hacc k hk (Or.inl rfl)⟩⟩
    · obtain ⟨v, hv, hstrong⟩ := htab j hjb
      have hjnext : j < next.length := by
        rw [List.getElem?_eq_some] at hv
        exact hv.1
      have hjmax : j ≠ usizeMax := by omega
      have hjp : j < p.length := by
        have := hjInB.1
        omega
      have hpi : p[i]? = some p[i] := List.getElem?_eq_getElem hi
      have hpj : p[j]? = some p[j] := List.getElem?_eq_getElem hjp
      by_cases he : equal p[i] p[j] = true
      · exact ⟨j, by simp [prepareInner, hv, hpi, hpj, he],
          Or.inr ⟨hjInB, EqIdx.of_getElem hi hjp he,
            fun k hk hlt => hacc k hk (Or.inr hlt)⟩⟩
      · have hstep : prepareInner equal p next i (f + 1) j
            = prepareInner equal p next i f v := by
          simp [prepareInner, hv, hpi, hpj, he]
        have hpre2 : v = usizeMax ∨ (v ≤ i - 1 ∧ InB equal p i v) := by
          rcases hstrong.1 with h1 | h1
          · exact Or.inl h1
          · have hvi : InB equal p i v := InB.comp hEqv h1 hjInB
            exact Or.inr ⟨by have := h1.1; omega, hvi⟩
        have hacc2 : ∀ k, InB equal p i k → (v = usizeMax ∨ v < k) →
            ¬ EqIdx equal p p i k := by
          intro k hk hvk hcontra
          rcases Nat.lt_trichotomy k j with hkj | hkj | hkj
          · have hkInBj : InB equal p j k := InB.sub hEqv hk hjInB hkj
            have hjk : EqIdx equal p p j k := hstrong.2 k hkInBj hvk
            have : EqIdx equal p p i j := hcontra.trans hEqv (hjk.symm hEqv)
            exact he (this.getElem hi hjp)
          · subst hkj
            exact he (hcontra.getElem hi hjp)
          · exact hacc k hk (Or.inr hkj) hcontra
        have hfuel2 : chainFuel v ≤ f := by
          rw [chainFuel_real hjmax] at hfuel
          rcases hstrong.1 with h1 | h1
          · rw [h1, chainFuel_sentinel]
            omega
          · have hvj : v < j := h1.1
            have hvmax : v ≠ usizeMax := by omega
            rw [chainFuel_real hvmax]
            omega
        obtain ⟨j2, hok2, hpost⟩ := ih v hpre2 hacc2 hfuel2
        exact ⟨j2, by rw [hstep]; exact hok2, hpost⟩

/-- Maximality: `j` is the longest proper border of the length-`i` prefix of `p`. -/
def MaxB {α : Type} (equal : α → α → Bool) (p : List α) (i j : Nat) : Prop :=
  InB equal p i j ∧ ∀ k, InB equal p i k → k ≤ j

/-- Run of the builder's outer loop under the classic invariant (`j` is the
longest border of the prefix ending at `i`, all filled entries are strong):
it fills the whole table with strong entries. -/
theorem prepareOuter_build {α : Type} (equal : α → α → Bool) (p : List α)
    (hEqv : IsEqv equal) :
    ∀ fuel i j next,
      next.length ≤ usizeMax →
      p.length < next.length →
      i ≤ p.length →
      ((i = 0 ∧ j = usizeMax) ∨ MaxB equal p i j) →
      TableOK equal p next i →
      (p.length - i) + p.length + 2 ≤ fuel →
      ∃ next2, prepareOuter equal p fuel i j next = Res.ok next2 ∧
        next2.length = next.length ∧ TableOK equal p next2 p.length := by
  intro fuel
  induction fuel with
  | zero =>
    intro i j next _ _ _ _ _ hfuel
    omega
  | succ f ih =>
    intro i j next hlen hplen hi hstate htab hfuel
    by_cases hguard : i < p.length
    · have hstart : j = usizeMax ∨ (j ≤ i - 1 ∧ InB equal p i j) := by
        rcases hstate with ⟨_, hj⟩ | hmb
        · exact Or.inl hj
        · exact Or.inr ⟨by have := hmb.1.1; omega, hmb.1⟩
      have hacc : ∀ k, InB equal p i k → (j = usizeMax ∨ j < k) →
          ¬ EqIdx equal p p i k := by
        intro k hk hcond _
        rcases hstate with ⟨hi0, _⟩ | hmb
        · subst hi0
          have := hk.1
          omega
        · have := hmb.2 k hk
          rcases hcond with h | h
          · have := hmb.1.1
            omega
          · omega
      have hfuelin : chainFuel j ≤ f + 1 := by
        rcases hstart with h | ⟨h1, _⟩
        · rw [h, chainFuel_sentinel]
          omega
        · rw [chainFuel_real (by omega)]
          omega
      obtain ⟨j0, hok, hpost⟩ := prepareInner_build equal p next i hEqv hlen
        hguard (htab.shrink (by omega)) (f + 1) j hstart hacc hfuelin
      obtain ⟨j1, hj1eq, hmb⟩ :
          ∃ j1, (j0 + 1) % USIZE = j1 ∧ MaxB equal p (i + 1) j1 := by
        rcases hpost with ⟨hj0max, hdead⟩ | ⟨hInB, hEq, hdead⟩
        · refine ⟨0, by rw [hj0max, wrap_sentinel], InB.zero (by omega), ?_⟩
          intro k hk
          cases k with
          | zero => omega
          | succ k2 =>
            obtain ⟨hk2InB, hk2Eq⟩ := hk.restrict
            exact absurd (hk2Eq.symm hEqv) (hdead k2 hk2InB)
        · have hj0max : j0 < usizeMax := by
            have := hInB.1
            omega
          refine ⟨j0 + 1, wrap_succ hj0max, hInB.ext (hEq.symm hEqv), ?_⟩
          intro k hk
          cases k with
          | zero => omega
          | succ k2 =>
            by_contra hgt
            obtain ⟨hk2InB, hk2Eq⟩ := hk.restrict
            exact hdead k2 hk2InB (by omega) (hk2Eq.symm hEqv)
      have hj1i : j1 < i + 1 := hmb.1.1
      have hwrite : i + 1 < next.length := by omega
      have hkeyB : ∀ v, StrongAt equal p (i + 1) v →
          ∃ next2, prepareOuter equal p f (i + 1) j1 (next.set (i + 1) v)
              = Res.ok next2 ∧
            next2.length = next.length ∧ TableOK equal p next2 p.length := by
        intro v hvstrong
        have htab2 : TableOK equal p (next.set (i + 1) v) (i + 1) := by
          intro k hk
          by_cases hk2 : k = i + 1
          · subst hk2
            exact ⟨v, List.getElem?_set_self hwrite, hvstrong⟩
          · obtain ⟨w2, hw2, hw2s⟩ := htab k (by omega)
            exact ⟨w2, by rw [List.getElem?_set_ne (by omega)]; exact hw2, hw2s⟩
        obtain ⟨n2, h1, h2, h3⟩ := ih (i + 1) j1 (next.set (i + 1) v)
          (by rw [List.length_set]; exact hlen)
          (by rw [List.length_set]; exact hplen)
          (by omega) (Or.inr hmb) htab2 (by omega)
        exact ⟨n2, h1, by rw [List.length_set] at h2; exact h2, h3⟩
      by_cases hend : i + 1 = p.length
      · have hne : ¬ (i + 1 ≠ p.length) := by omega
        have hstr : StrongAt equal p (i + 1) j1 := by
          refine ⟨Or.inr hmb.1, fun k2 hk2 hcond => ?_⟩
          have := hmb.2 k2 hk2
          rcases hcond with h | h
          · have := hmb.1.1
            omega
          · omega
        obtain ⟨n2, h1, h2, h3⟩ := hkeyB j1 hstr
        exact ⟨n2, by simp [prepareOuter, hguard, hok, hne, hwrite, hj1eq, h1],
          h2, h3⟩
      · have hi1 : i + 1 < p.length := by omega
        have hpi1 : p[i + 1]? = some p[i + 1] := List.getElem?_eq_getElem hi1
        have hj1p : j1 < p.length := by omega
        have hpj1 : p[j1]? = some p[j1] := List.getElem?_eq_getElem hj1p
        by_cases he2 : equal p[i + 1] p[j1] = true
        · obtain ⟨w, hw, hwstrong⟩ := htab j1 (by omega)
          have hEqj1 : EqIdx equal p p (i + 1) j1 :=
            EqIdx.of_getElem hi1 hj1p he2
          have hstr : StrongAt equal p (i + 1) w := by
            constructor
            · rcases hwstrong.1 with h | h
              · exact Or.inl h
              · exact Or.inr (InB.comp hEqv h hmb.1)
            · intro k2 hk2 hcond
              rcases Nat.lt_trichotomy k2 j1 with hkj | hkj | hkj
              · have hk2InB : InB equal p j1 k2 := InB.sub hEqv hk2 hmb.1 hkj
                have : EqIdx equal p p j1 k2 := hwstrong.2 k2 hk2InB hcond
                exact hEqj1.trans hEqv this
              · rw [hkj]
                exact hEqj1
              · have := hmb.2 k2 hk2
                omega
          obtain ⟨n2, h1, h2, h3⟩ := hkeyB w hstr
          exact ⟨n2,
            by simp [prepareOuter, hguard, hok, hend, hpi1, hpj1, he2, hw,
              hwrite, hj1eq, h1], h2, h3⟩
        · have hstr : StrongAt equal p (i + 1) j1 := by
            refine ⟨Or.inr hmb.1, fun k2 hk2 hcond => ?_⟩
            have := hmb.2 k2 hk2
            rcases hcond with h | h
            · have := hmb.1.1
              omega
            · omega
          obtain ⟨n2, h1, h2, h3⟩ := hkeyB j1 hstr
          exact ⟨n2,
            by simp [prepareOuter, hguard, hok, hend, hpi1, hpj1, he2, hwrite,
              hj1eq, h1], h2, h3⟩
    · have hieq : i = p.length := by omega
      subst hieq
      exact ⟨next, by simp [prepareOuter, hguard], rfl, htab⟩

/-! ## Full correctness of the matcher -/

/-- Run of the matcher's inner fallback loop under the table-strength
invariant: starting from a matched prefix of length `i` ending just before
text position `j`, it either proves that no pattern occurrence can start at
any offset in `[j - i, j]` (sentinel exit), or finds the longest shorter
matched prefix that extends with `text[j]`, proving all skipped offsets
impossible. -/
theorem kmpInner_run {α : Type} (equal : α → α → Bool) (p t : List α)
    (next : List Nat) (j : Nat)
    (hEqv : IsEqv equal)
    (hlen : next.length ≤ usizeMax)
    (htab : TableOK equal p next (p.length - 1))
    (hm : 0 < p.length)
    (hj : j < t.length) :
    ∀ fuel i,
      i < p.length → i ≤ j →
      (∀ x, x < i → EqIdx equal p t x (j - i + x)) →
      chainFuel i ≤ fuel →
      ∃ i2, kmpInner equal p t next j fuel i = Res.ok i2 ∧
        ((i2 = usizeMax ∧
           ∀ k, j - i ≤ k → k ≤ j → matchAtB equal t p k = false) ∨
         (i2 ≤ i ∧ i2 < p.length ∧ i2 ≤ j ∧
           (∀ x, x < i2 → EqIdx equal p t x (j - i2 + x)) ∧
           EqIdx equal p t i2 j ∧
           (∀ k, j - i ≤ k → k < j - i2 → matchAtB equal t p k = false))) := by
  intro fuel
  induction fuel with
  | zero =>
    intro i _ _ _ hfuel
    have := chainFuel_pos i
    omega
  | succ f ih =>
    intro i hi hij hseg hfuel
    obtain ⟨v, hv, hstrong⟩ := htab i (by omega)
    have hinext : i < next.length := by
      rw [List.getElem?_eq_some] at hv
      exact hv.1
    have himax : i ≠ usizeMax := by omega
    have hpi : p[i]? = some p[i] := List.getElem?_eq_getElem hi
    have htj : t[j]? = some t[j] := List.getElem?_eq_getElem hj
    by_cases he : equal p[i] t[j] = true
    · exact ⟨i, by simp [kmpInner, hv, hpi, htj, he],
        Or.inr ⟨le_rfl, hi, hij, hseg, EqIdx.of_getElem hi hj he,
          fun k h1 h2 => by omega⟩⟩
    · have hstep : kmpInner equal p t next j (f + 1) i
          = kmpInner equal p t next j f v := by
        simp [kmpInner, hv, hpi, htj, he]
      have hDead : ∀ k2, k2 ≤ i → (v = usizeMax ∨ v < k2) →
          matchAtB equal t p (j - k2) = false := by
        intro k2 hk2 hcond
        cases hb : matchAtB equal t p (j - k2) with
        | false => rfl
        | true =>
          exfalso
          obtain ⟨hlenb, hall⟩ := (matchAtB_iff equal t p (j - k2)).mp hb
          have hx0 : EqIdx equal p t k2 j := by
            have := hall k2 (by omega)
            have harith : j - k2 + k2 = j := by omega
            rw [harith] at this
            exact this
          by_cases hk2i : k2 = i
          · subst hk2i
            exact he (hx0.getElem hi hj)
          · by_cases hInB : InB equal p i k2
            · have hik2 : EqIdx equal p p i k2 := hstrong.2 k2 hInB hcond
              have : EqIdx equal p t i j := hik2.trans hEqv hx0
              exact he (this.getElem hi hj)
            · have hex : ∃ x, x < k2 ∧ ¬ EqIdx equal p p x (i - k2 + x) := by
                by_contra hno
                push_neg at hno
                exact hInB ⟨by omega, fun x hx => hno x hx⟩
              obtain ⟨x0, hx0lt, hnEq⟩ := hex
              have h1 : EqIdx equal p t x0 (j - k2 + x0) := hall x0 (by omega)
              have h2 : EqIdx equal p t (i - k2 + x0) (j - i + (i - k2 + x0)) :=
                hseg (i - k2 + x0) (by omega)
              have harith : j - i + (i - k2 + x0) = j - k2 + x0 := by omega
              rw [harith] at h2
              exact hnEq (h1.trans hEqv (h2.symm hEqv))
      rcases hstrong.1 with hvmax | hvInB
      · subst hvmax
        have hf1 : 1 ≤ f := by
          rw [chainFuel_real himax] at hfuel
          omega
        have hres : kmpInner equal p t next j f usizeMax = Res.ok usizeMax := by
          cases f with
          | zero => omega
          | succ f2 =>
            have hnone : next[usizeMax]? = none := List.getElem?_eq_none hlen
            simp [kmpInner, hnone]
        refine ⟨usizeMax, by rw [hstep]; exact hres, Or.inl ⟨rfl, ?_⟩⟩
        intro k hk1 hk2
        have hk2i : j - k ≤ i := by omega
        have heq : j - (j - k) = k := by omega
        have := hDead (j - k) hk2i (Or.inl rfl)
        rw [heq] at this
        exact this
      · have hvlt : v < i := hvInB.1
        have hseg2 : ∀ x, x < v → EqIdx equal p t x (j - v + x) := by
          intro x hx
          have h1 : EqIdx equal p p x (i - v + x) := hvInB.2 x hx
          have h2 : EqIdx equal p t (i - v + x) (j - i + (i - v + x)) :=
            hseg (i - v + x) (by omega)
          have harith : j - i + (i - v + x) = j - v + x := by omega
          rw [harith] at h2
          exact h1.trans hEqv h2
        have hfuel2 : chainFuel v ≤ f := by
          rw [chainFuel_real himax] at hfuel
          rw [chainFuel_real (by omega)]
          omega
        obtain ⟨i2, hok2, hpost⟩ := ih v (by omega) (by omega) hseg2 hfuel2
        refine ⟨i2, by rw [hstep]; exact hok2, ?_⟩
        rcases hpost with ⟨hi2max, hdead2⟩ | ⟨h1, h2, h3, h4, h5, h6⟩
        · refine Or.inl ⟨hi2max, fun k hk1 hk2 => ?_⟩
          by_cases hkv : j - v ≤ k
          · exact hdead2 k hkv hk2
          · have hk2i : j - k ≤ i := by omega
            have hvk : v < j - k := by omega
            have heq : j - (j - k) = k := by omega
            have := hDead (j - k) hk2i (Or.inr hvk)
            rw [heq] at this
            exact this
        · refine Or.inr ⟨by omega, h2, h3, h4, h5, fun k hk1 hk2 => ?_⟩
          by_cases hkv : j - v ≤ k
          · exact h6 k hkv hk2
          · have hk2i : j - k ≤ i := by omega
            have hvk : v < j - k := by omega
            have heq : j - (j - k) = k := by omega
            have := hDead (j - k) hk2i (Or.inr hvk)
            rw [heq] at this
            exact this

/-- Run of the matcher's outer loop under the table-strength invariant: it
returns exactly the reference first-occurrence search result. -/
theorem kmpOuter_run {α : Type} (equal : α → α → Bool) (p t : List α)
    (next : List Nat)
    (hEqv : IsEqv equal)
    (hlen : next.length ≤ usizeMax)
    (htab : TableOK equal p next (p.length - 1))
    (hm : 0 < p.length) :
    ∀ fuel i j,
      i < p.length → i ≤ j → j ≤ t.length →
      (∀ x, x < i → EqIdx equal p t x (j - i + x)) →
      (∀ k, k < j - i → matchAtB equal t p k = false) →
      (t.length - j) + p.length + 2 ≤ fuel →
      kmpOuter equal p t next fuel i j
        = Res.ok (referenceSearch equal t p) := by
  have hmnext : p.length - 1 < next.length := by
    obtain ⟨v, hv, _⟩ := htab (p.length - 1) le_rfl
    rw [List.getElem?_eq_some] at hv
    exact hv.1
  have hmmax : p.length ≤ usizeMax := by omega
  intro fuel
  induction fuel with
  | zero =>
    intro i j _ _ _ _ _ hfuel
    omega
  | succ f ih =>
    intro i j hi hij hjn hseg hdead hfuel
    by_cases hguard : j < t.length
    · obtain ⟨i0, hok, hpost⟩ := kmpInner_run equal p t next j hEqv hlen htab
        hm hguard (f + 1) i hi hij hseg
        (by rw [chainFuel_real (by omega)]; omega)
      rcases hpost with ⟨hi0max, hdead2⟩ | ⟨hle, hi0m, hi0j, hseg0, hEq0, hdead2⟩
      · have hnret : ¬ (p.length ≤ (i0 + 1) % USIZE) := by
          rw [hi0max, wrap_sentinel]
          omega
        have hrec := ih 0 (j + 1) (by omega) (by omega) (by omega)
          (fun x hx => absurd hx (by omega))
          (by
            intro k hk
            by_cases hki : k < j - i
            · exact hdead k hki
            · exact hdead2 k (by omega) (by omega))
          (by omega)
        rw [hi0max] at hok
        have hplz : ¬ (p.length ≤ 0) := by omega
        simp only [kmpOuter, if_pos hguard, hok, wrap_sentinel, if_neg hplz]
        exact hrec
      · have hi0max2 : i0 < usizeMax := by omega
        have hwrap : (i0 + 1) % USIZE = i0 + 1 := wrap_succ hi0max2
        have hseg1 : ∀ x, x < i0 + 1 → EqIdx equal p t x (j + 1 - (i0 + 1) + x) := by
          intro x hx
          by_cases hxi : x < i0
          · have := hseg0 x hxi
            have harith : j + 1 - (i0 + 1) + x = j - i0 + x := by omega
            rw [harith]
            exact this
          · have hxe : x = i0 := by omega
            rw [hxe]
            have harith : j + 1 - (i0 + 1) + i0 = j := by omega
            rw [harith]
            exact hEq0
        have hdead1 : ∀ k, k < j + 1 - (i0 + 1) → matchAtB equal t p k = false := by
          intro k hk
          by_cases hki : k < j - i
          · exact hdead k hki
          · exact hdead2 k (by omega) (by omega)
        by_cases hret : p.length ≤ i0 + 1
        · have hi0e : i0 + 1 = p.length := by omega
          have hmatch : matchAtB equal t p (j + 1 - p.length) = true := by
            rw [matchAtB_iff]
            refine ⟨by omega, fun x hx => ?_⟩
            have := hseg1 x (by omega)
            have harith : j + 1 - (i0 + 1) + x = j + 1 - p.length + x := by omega
            rw [harith] at this
            exact this
          have hmin : ∀ k, k < j + 1 - p.length →
              matchAtB equal t p k = false := by
            intro k hk
            exact hdead1 k (by omega)
          have hrefeq : referenceSearch equal t p = some (j + 1 - p.length) :=
            referenceSearch_eq_some equal t p (j + 1 - p.length) hmatch hmin
          have hsub : (i0 + 1) % USIZE ≤ j + 1 := by
            rw [hwrap]
            omega
          simp only [kmpOuter, if_pos hguard, hok, hwrap, if_pos hret,
            if_pos (by omega : i0 + 1 ≤ j + 1)]
          rw [hrefeq]
          rw [show j + 1 - (i0 + 1) = j + 1 - p.length from by omega]
        · have hrec := ih (i0 + 1) (j + 1) (by omega) (by omega) (by omega)
            hseg1 hdead1 (by omega)
          simp only [kmpOuter, if_pos hguard, hok, hwrap, if_neg hret]
          exact hrec
    · have hje : j = t.length := by omega
      have hnone : referenceSearch equal t p = none := by
        apply referenceSearch_eq_none
        intro k
        by_cases hki : k < j - i
        · exact hdead k hki
        · cases hb : matchAtB equal t p k with
          | false => rfl
          | true =>
            exfalso
            have := ((matchAtB_iff equal t p k).mp hb).1
            omega
      simp [kmpOuter, hguard, hnone]

/-- Full correctness of `prepare_kmp`: with enough fuel it returns a table of
unchanged length all of whose entries up to `x.length` are strong. -/
theorem prepare_kmp_build {α : Type} (equal : α → α → Bool) (p : List α)
    (next : List Nat) (fuel : Nat)
    (hEqv : IsEqv equal)
    (hlen : next.length ≤ usizeMax)
    (hplen : p.length < next.length)
    (hfuel : 2 * p.length + 2 ≤ fuel) :
    ∃ next2, prepare_kmp fuel p next equal = Res.ok next2 ∧
      next2.length = next.length ∧ TableOK equal p next2 p.length := by
  unfold prepare_kmp
  rw [if_pos (by omega)]
  have htab0 : TableOK equal p (next.set 0 usizeMax) 0 := by
    intro k hk
    have hk0 : k = 0 := by omega
    subst hk0
    refine ⟨usizeMax, List.getElem?_set_self (by omega), Or.inl rfl, ?_⟩
    intro k2 hk2 _
    have := hk2.1
    omega
  obtain ⟨n2, h1, h2, h3⟩ := prepareOuter_build equal p hEqv fuel 0 usizeMax
    (next.set 0 usizeMax)
    (by rw [List.length_set]; exact hlen)
    (by rw [List.length_set]; exact hplen)
    (by omega) (Or.inl ⟨rfl, rfl⟩) htab0 (by omega)
  exact ⟨n2, h1, by rw [List.length_set] at h2; exact h2, h3⟩

/-- Master correctness statement: with sufficient fuel, the embedded
`knuth_morris_pratt_by` computes exactly the reference search result. -/
theorem kmp_by_master {α : Type} (equal : α → α → Bool) (text pattern : List α)
    (fuel : Nat)
    (hEqv : IsEqv equal)
    (hp : pattern.length < usizeMax)
    (hfuel : kmpFuel text pattern ≤ fuel) :
    knuth_morris_pratt_by fuel text pattern equal
      = Res.ok (referenceSearch equal text pattern) := by
  unfold kmpFuel at hfuel
  unfold knuth_morris_pratt_by
  by_cases h0 : pattern.length = 0
  · rw [if_pos h0]
    have href : referenceSearch equal text pattern = some 0 := by
      apply referenceSearch_eq_some
      · rw [matchAtB_iff]
        exact ⟨by omega, fun x hx => absurd hx (by omega)⟩
      · intro j hj
        omega
    rw [href]
  · rw [if_neg h0]
    by_cases h1 : text.length < pattern.length
    · rw [if_pos h1]
      have href : referenceSearch equal text pattern = none := by
        apply referenceSearch_eq_none
        intro j
        cases hb : matchAtB equal text pattern j with
        | false => rfl
        | true =>
          exfalso
          have := ((matchAtB_iff equal text pattern j).mp hb).1
          omega
      rw [href]
    · rw [if_neg h1]
      obtain ⟨n2, hok, hlen2, htab⟩ := prepare_kmp_build equal pattern
        (nextBuffer pattern) fuel hEqv (nextBuffer_length_le pattern hp)
        (by have := nextBuffer_length_ge pattern; omega) (by omega)
      rw [hok]
      exact kmpOuter_run equal pattern text n2 hEqv
        (by rw [hlen2]; exact nextBuffer_length_le pattern hp)
        (htab.shrink (by omega)) (by omega) fuel 0 0 (by omega) le_rfl
        (by omega) (fun x hx => absurd hx (by omega))
        (fun k hk => absurd hk (by omega)) (by omega)

/-! ## The claimed properties of the search and the table -/

/-- C1: For every text, pattern and well-behaved (total, deterministic,
equivalence-like) predicate, `knuth_morris_pratt_by` returns exactly the
result of the naive reference first-occurrence search under the same
predicate, and `knuth_morris_pratt` agrees with the reference search under
structural equality.  (The fuel and `pattern.length < usizeMax` hypotheses
are artifacts of the embedding: Rust slices always satisfy the length bound,
and the fuelled loops are proved to finish within `kmpFuel`.) -/
theorem kmp_by_equals_reference_search {α : Type} [DecidableEq α]
    (equal : α → α → Bool) (text pattern : List α) (fuel : Nat)
    (hEqv : IsEqv equal)
    (hp : pattern.length < usizeMax)
    (hfuel : kmpFuel text pattern ≤ fuel) :
    knuth_morris_pratt_by fuel text pattern equal
      = Res.ok (referenceSearch equal text pattern) ∧
    knuth_morris_pratt fuel text pattern
      = Res.ok (referenceSearch (fun a b : α => decide (a = b)) text pattern) :=
  ⟨kmp_by_master equal text pattern fuel hEqv hp hfuel,
   kmp_by_master (fun a b : α => decide (a = b)) text pattern fuel
     IsEqv.decideEq hp hfuel⟩

/-- Witness for C1 at a concrete instance (the crate's own test case
`knuth_morris_pratt(&[1729, 1, 1729, 3, 4], &[1729, 3]) == Some(2)`). -/
theorem kmp_by_equals_reference_search_witness :
    knuth_morris_pratt_by 100 [1729, 1, 1729, 3, 4] [1729, 3]
        (fun a b : Nat => decide (a = b))
      = Res.ok (referenceSearch (fun a b : Nat => decide (a = b))
          [1729, 1, 1729, 3, 4] [1729, 3]) ∧
    knuth_morris_pratt 100 [1729, 1, 1729, 3, 4] ([1729, 3] : List Nat)
      = Res.ok (referenceSearch (fun a b : Nat => decide (a = b))
          [1729, 1, 1729, 3, 4] [1729, 3]) :=
  kmp_by_equals_reference_search (fun a b : Nat => decide (a = b))
    [1729, 1, 1729, 3, 4] [1729, 3] 100 IsEqv.decideEq (by decide) (by decide)

/-- C2: If the search returns `Some k`, then the pattern fits at offset
`k` (`k + pattern.length ≤ text.length`, i.e. `0 ≤ k ≤ n - m`), matches the
text elementwise there under the predicate, and no smaller offset satisfies
the match condition. -/
theorem kmp_by_some_is_least_valid_match {α : Type} (equal : α → α → Bool)
    (text pattern : List α) (fuel k : Nat)
    (hEqv : IsEqv equal)
    (hp : pattern.length < usizeMax)
    (hfuel : kmpFuel text pattern ≤ fuel)
    (hres : knuth_morris_pratt_by fuel text pattern equal = Res.ok (some k)) :
    k + pattern.length ≤ text.length ∧
    (∀ x, x < pattern.length → EqIdx equal pattern text x (k + x)) ∧
    (∀ k2, k2 < k → ¬ (k2 + pattern.length ≤ text.length ∧
      ∀ x, x < pattern.length → EqIdx equal pattern text x (k2 + x))) := by
  have hm := kmp_by_master equal text pattern fuel hEqv hp hfuel
  rw [hres] at hm
  have href : referenceSearch equal text pattern = some k := by
    injection hm with h
    exact h.symm
  obtain ⟨h1, h2⟩ := referenceSearch_some_elim equal text pattern k href
  obtain ⟨h1a, h1b⟩ := (matchAtB_iff equal text pattern k).mp h1
  refine ⟨h1a, h1b, fun k2 hk2 hcontra => ?_⟩
  have hth : matchAtB equal text pattern k2 = true :=
    (matchAtB_iff equal text pattern k2).mpr hcontra
  rw [h2 k2 hk2] at hth
  exact Bool.false_ne_true hth

/-- Witness for C2 at a concrete instance. -/
theorem kmp_by_some_is_least_valid_match_witness :
    2 + [1729, 3].length ≤ [1729, 1, 1729, 3, 4].length ∧
    (∀ x, x < [1729, 3].length →
      EqIdx (fun a b : Nat => decide (a = b)) [1729, 3] [1729, 1, 1729, 3, 4]
        x (2 + x)) ∧
    (∀ k2, k2 < 2 → ¬ (k2 + [1729, 3].length ≤ [1729, 1, 1729, 3, 4].length ∧
      ∀ x, x < [1729, 3].length →
        EqIdx (fun a b : Nat => decide (a = b)) [1729, 3] [1729, 1, 1729, 3, 4]
          x (k2 + x))) :=
  kmp_by_some_is_least_valid_match (fun a b : Nat => decide (a = b))
    [1729, 1, 1729, 3, 4] [1729, 3] 100 2 IsEqv.decideEq (by decide) (by decide)
    (by decide)

/-- C7: After `prepare_kmp` fills a table for a pattern of length `m`
(over a buffer of length at least `m + 1`, as the caller guarantees), the
entry at index 0 is the sentinel and every entry at index `1 ≤ i ≤ m` is
strictly smaller than `i` or equal to the sentinel; moreover the filled
entries up to index `m` are a function of the pattern and the predicate
alone — they do not depend on the initial buffer contents or on its exact
length.  (In the functional embedding the table is by construction never
mutated after `prepare_kmp` returns: the matcher only reads it.) -/
theorem prepare_kmp_table_invariant {α : Type} (equal : α → α → Bool)
    (x : List α) (next : List Nat) (fuel : Nat) (t : List Nat)
    (hlen : next.length ≤ usizeMax)
    (hxlen : x.length < next.length)
    (hok : prepare_kmp fuel x next equal = Res.ok t) :
    t[0]? = some usizeMax ∧
    (∀ i, 1 ≤ i → i ≤ x.length → ∃ v, t[i]? = some v ∧ (v < i ∨ v = usizeMax)) ∧
    (∀ next2 t2, next2.length ≤ usizeMax → x.length < next2.length →
      AgreeUpTo next next2 x.length →
      prepare_kmp fuel x next2 equal = Res.ok t2 →
      AgreeUpTo t t2 x.length) := by
  rcases prepare_kmp_struct equal x next fuel hlen hxlen
    with ⟨hf, _⟩ | ⟨n2, h1, h2, h3⟩
  · rw [hok] at hf
    exact absurd hf (by simp)
  · rw [hok] at h1
    injection h1 with h1e
    subst h1e
    refine ⟨?_, ?_, ?_⟩
    · obtain ⟨v, hv, hvlt⟩ := h3 0 (by omega)
      rcases hvlt with hvm | hvm
      · rw [hv, hvm]
      · omega
    · intro i hi1 hi2
      obtain ⟨v, hv, hvlt⟩ := h3 i hi2
      exact ⟨v, hv, hvlt.symm⟩
    · intro next2 t2 hlen2 hxlen2 hagree hok2
      unfold prepare_kmp at hok hok2
      rw [if_pos (by omega)] at hok
      rw [if_pos (by omega)] at hok2
      have hagree0 : AgreeUpTo (next.set 0 usizeMax) (next2.set 0 usizeMax)
          x.length := by
        intro k hk
        by_cases hk0 : k = 0
        · subst hk0
          rw [List.getElem?_set_self (by omega), List.getElem?_set_self (by omega)]
        · rw [List.getElem?_set_ne (by omega), List.getElem?_set_ne (by omega)]
          exact hagree k hk
      have hsinv0 : SInv (next.set 0 usizeMax) 0 := by
        intro k hk
        have hk0 : k = 0 := by omega
        subst hk0
        exact ⟨usizeMax, List.getElem?_set_self (by omega), Or.inl rfl⟩
      rcases prepareOuter_par equal x fuel 0 usizeMax (next.set 0 usizeMax)
          (next2.set 0 usizeMax)
          (by rw [List.length_set]; exact hlen)
          (by rw [List.length_set]; exact hlen2)
          (by rw [List.length_set]; exact hxlen)
          (by rw [List.length_set]; exact hxlen2)
          hagree0 hsinv0 (by omega) (Or.inl rfl)
        with ⟨hf1, _⟩ | ⟨u1, u2, hu1, hu2, hagr, _, _, _⟩
      · rw [hok] at hf1
        exact absurd hf1 (by simp)
      · rw [hok] at hu1
        rw [hok2] at hu2
        injection hu1 with he1
        injection hu2 with he2
        subst he1
        subst he2
        exact hagr

/-- Witness for C7 at a concrete instance. -/
theorem prepare_kmp_table_invariant_witness :
    (([usizeMax, usizeMax, 1] : List Nat)[0]? = some usizeMax) ∧
    (∀ i, 1 ≤ i → i ≤ [1, 1].length →
      ∃ v, ([usizeMax, usizeMax, 1] : List Nat)[i]? = some v ∧
        (v < i ∨ v = usizeMax)) ∧
    (∀ next2 t2, next2.length ≤ usizeMax → [1, 1].length < next2.length →
      AgreeUpTo (List.replicate 3 0) next2 [1, 1].length →
      prepare_kmp 50 [1, 1] next2 (fun a b : Nat => decide (a = b)) = Res.ok t2 →
      AgreeUpTo [usizeMax, usizeMax, 1] t2 [1, 1].length) :=
  prepare_kmp_table_invariant (fun a b : Nat => decide (a = b)) [1, 1]
    (List.replicate 3 0) 50 [usizeMax, usizeMax, 1] (by decide) (by decide)
    (by decide)
